import Mathlib

/-!
Shallow embedding of the tic-tac-toe engine in
`lib/tic_tac_toe/core.py` (classes `TicTacToeGame` and `ComputerPlayer`),
together with proofs about it.

Python `None` board cells become `none`, the `'X'`/`'O'` marker strings
become Lean `String`s, Python ints become `Int`/`Nat`, and the exceptions
`InvalidSymbol`/`InvalidMove` raised by `mark` become an `Except` result
paired with the (unchanged, on failure) board state.
-/

set_option maxHeartbeats 16000000
set_option maxRecDepth 16000

/-- Errors raised by `TicTacToeGame.mark`: the Python exception classes
`InvalidSymbol` and `InvalidMove`. -/
inductive MoveError where
  | invalidSymbol
  | invalidMove
  deriving DecidableEq, Repr

instance {ε α : Type} [DecidableEq ε] [DecidableEq α] : DecidableEq (Except ε α) := fun a b =>
  match a, b with
  | .ok x, .ok y =>
    match decEq x y with
    | isTrue h => isTrue (by rw [h])
    | isFalse h => isFalse fun hh => h (Except.ok.inj hh)
  | .error e, .error f =>
    match decEq e f with
    | isTrue h => isTrue (by rw [h])
    | isFalse h => isFalse fun hh => h (Except.error.inj hh)
  | .ok _, .error _ => isFalse fun hh => Except.noConfusion hh
  | .error _, .ok _ => isFalse fun hh => Except.noConfusion hh

/-- A tic-tac-toe game: `board` is the Python attribute `_board`, a list of
9 cells each holding `None`, `'X'` or `'O'` (here: `Option String`). -/
structure TicTacToeGame where
  board : List (Option String)
  deriving DecidableEq, Repr

namespace TicTacToeGame

/-- Class attribute `TicTacToeGame.PLAYER = 'X'`. -/
def PLAYER : String := "X"

/-- Class attribute `TicTacToeGame.OPPONENT_PLAYER = 'O'`. -/
def OPPONENT_PLAYER : String := "O"

/-- Class attribute `WIN_POSITIONS`: the 8 winning index triples. -/
def WIN_POSITIONS : List (Nat × Nat × Nat) :=
  [(0, 1, 2), (3, 4, 5), (6, 7, 8),
   (0, 3, 6), (1, 4, 7), (2, 5, 8),
   (0, 4, 8), (2, 4, 6)]

/-- The Python status constant `GAME_STATUS.WIN` (the `GAME_STATUS`
`attrdict` holds plain strings in the source). -/
def GAME_STATUS_WIN : String := "WIN"

/-- Python status constant `GAME_STATUS.DRAW`. -/
def GAME_STATUS_DRAW : String := "DRAW"

/-- Python status constant `GAME_STATUS.ACTIVE`. -/
def GAME_STATUS_ACTIVE : String := "ACTIVE"

/-- `self._board[pos]`: list indexing.  On a well-formed board every index
used by the engine is in range; out of range yields `none`. -/
def cell (g : TicTacToeGame) (pos : Nat) : Option String :=
  g.board.getD pos none

/-- Inner function `win_cond` of `_game_result`: if the three cells of
`win_perm` hold a single common value (`len(set(...)) == 1`, here: the
dedup of the three values is a singleton), return that value (which may
itself be `None` and is then dropped by the caller's filter); else `None`. -/
def win_cond (g : TicTacToeGame) (win_perm : Nat × Nat × Nat) : Option String :=
  if ([g.cell win_perm.1, g.cell win_perm.2.1, g.cell win_perm.2.2].dedup).length = 1 then
    g.cell win_perm.1
  else
    none

/-- `TicTacToeGame._game_result`: `(is_over, winner)`.  The Python code
takes the first truthy `win_cond` value over `WIN_POSITIONS`
(`next(ifilter(None, imap(win_cond, WIN_POSITIONS)), None)`); here that is
`head?` of the `reduceOption` of the mapped list. -/
def game_result (g : TicTacToeGame) : Bool × Option String :=
  match ((WIN_POSITIONS.map g.win_cond).reduceOption).head? with
  | some w => (true, some w)
  | none => if none ∈ g.board then (false, none) else (true, none)

/-- Property `TicTacToeGame.status`: `'WIN'`, `'DRAW'` or `'ACTIVE'`. -/
def status (g : TicTacToeGame) : String :=
  let r := g.game_result
  if r.1 then
    if r.2 = none then GAME_STATUS_DRAW else GAME_STATUS_WIN
  else
    GAME_STATUS_ACTIVE

/-- Property `TicTacToeGame.winner`: the winner if the game is over and is
not a draw, else `None`. -/
def winner (g : TicTacToeGame) : Option String :=
  let r := g.game_result
  if r.1 = true ∧ r.2 ≠ none then r.2 else none

/-- Property `TicTacToeGame.is_over`. -/
def is_over (g : TicTacToeGame) : Bool :=
  g.game_result.1

/-- The Python 2 `str.upper()` case normalization applied by `mark`:
ASCII per-character uppercase.  (Extensionally this is `String.toUpper`,
whose Lean implementation recurses by well-founded recursion on byte
positions; this structural form is used so that concrete games compute.) -/
def pyUpper (s : String) : String :=
  ⟨s.data.map Char.toUpper⟩

/-- `TicTacToeGame.mark(symbol, pos)`.  Returns the raised exception (if
any) together with the resulting board state; the Python method raises
before mutating, so on error the state is returned unchanged.
`pos not in range(9)` is the Python membership test on ints. -/
def mark (g : TicTacToeGame) (symbol : String) (pos : Int) :
    Except MoveError Unit × TicTacToeGame :=
  let symbol := pyUpper symbol
  if symbol ∉ ([PLAYER, OPPONENT_PLAYER] : List String) then
    (.error .invalidSymbol, g)
  else if pos ∉ (List.range 9).map (Int.ofNat) then
    (.error .invalidMove, g)
  else
    (.ok (), ⟨g.board.set pos.toNat (some symbol)⟩)

/-- `TicTacToeGame.undo_mark(pos)`: set position `pos` back to `None`. -/
def undo_mark (g : TicTacToeGame) (pos : Nat) : TicTacToeGame :=
  ⟨g.board.set pos none⟩

/-- The successful path of `mark` for an already-uppercase valid symbol:
write `symbol` into cell `pos`.  `_mini_max` below only ever calls `mark`
with `'X'`/`'O'` at an available position, where `mark` cannot raise; see
`mark_of_available`. -/
def markCell (g : TicTacToeGame) (symbol : String) (pos : Nat) : TicTacToeGame :=
  ⟨g.board.set pos (some symbol)⟩

/-- `TicTacToeGame.available_positions()`:
`[pos for pos, val in enumerate(self._board) if val is None]`. -/
def available_positions (g : TicTacToeGame) : List Nat :=
  ((g.board.enum).filter (fun pv => decide (pv.2 = none))).map Prod.fst

/-- Number of empty cells of the board: the recursion depth of the
minimax search (each ply fills one empty cell). -/
def emptyCount (g : TicTacToeGame) : Nat :=
  g.board.countP (fun c => decide (c = none))

/-- The board-validity invariant enforced by the Python constructor's
`assert`s: length 9 and every cell in `{'X', 'O', None}`. -/
def Valid (g : TicTacToeGame) : Prop :=
  g.board.length = 9 ∧ ∀ c ∈ g.board, c = some PLAYER ∨ c = some OPPONENT_PLAYER ∨ c = none

instance : DecidablePred Valid := fun g => by
  unfold Valid; infer_instance

end TicTacToeGame

namespace ComputerPlayer

open TicTacToeGame

/-- `ComputerPlayer._symbol`, set in `__init__` to `TicTacToeGame.PLAYER`. -/
def symbol : String := TicTacToeGame.PLAYER

/-- `ComputerPlayer._score`: `1` if this player won, `-1` if the opponent
won, `0` on a draw.  (The Python method asserts `game.is_over`; the search
only calls it on finished games.) -/
def score (g : TicTacToeGame) : Int :=
  match g.winner with
  | none => 0
  | some w => if w = symbol then 1 else -1

/-- `ComputerPlayer._next_active_turn`:
`player_symbol == 'O' and 'X' or 'O'`. -/
def next_active_turn (player_symbol : String) : String :=
  if player_symbol = "O" then "X" else "O"

/-- Python 2 `>` on the minimax scores: both operands are ints except that
the running best starts as `None` (`None` compares below every int in
Python 2, though the code's `best_score is None or` short-circuit means the
`None` cases never actually drive a comparison). -/
def pyGt : Option Int → Option Int → Bool
  | some a, some b => decide (b < a)
  | some _, none => true
  | none, _ => false

/-- Python 2 `<` on the minimax scores; see `pyGt`. -/
def pyLt : Option Int → Option Int → Bool
  | some a, some b => decide (a < b)
  | none, some _ => true
  | _, none => false

/-- One iteration of the selection loop in `_mini_max`: given the running
`(best_score, best_move)` and a candidate `(score, move)`, keep the
candidate if it strictly improves (maximizing when `active_turn` is this
player's symbol, minimizing otherwise), with `best_score is None` seeding
the first iteration. -/
def select (active_turn : String) (best : Option Int × Option Nat)
    (sm : Option Int × Nat) : Option Int × Option Nat :=
  if active_turn = symbol then
    if best.1 = none ∨ pyGt sm.1 best.1 then (sm.1, some sm.2) else best
  else
    if best.1 = none ∨ pyLt sm.1 best.1 then (sm.1, some sm.2) else best

/-- Recursion kernel of `ComputerPlayer._mini_max(game, active_turn)`,
returning `(best_score, best_move)`.  The Python loop marks each available
position, recurses, and undoes the mark; in this pure embedding each
recursive call receives the one-cell-updated board
`markCell g active_turn m` instead, and the board needs no undo because it
is never mutated.  The Python recursion terminates because every ply fills
one empty cell; `fuel` makes that measure explicit (each recursive call
consumes exactly one unit and one empty cell), and `mini_max` below
instantiates it at the exact recursion depth, the number of empty cells.
The `fuel = 0` fallback is unreachable: a board with no empty cell is
over (see `mini_max_eq`). -/
def mini_max_fuel : Nat → TicTacToeGame → String → Option Int × Option Nat
  | fuel, g, active_turn =>
    if g.is_over then
      (some (score g), none)
    else
      match fuel with
      | 0 => (none, none)
      | fuel + 1 =>
        (g.available_positions.map
          (fun m =>
            ((mini_max_fuel fuel (markCell g active_turn m) (next_active_turn active_turn)).1,
              m))).foldl
          (select active_turn) (none, none)

/-- `ComputerPlayer._mini_max(game, active_turn)`; satisfies the source's
recursion exactly, see `mini_max_eq`. -/
def mini_max (g : TicTacToeGame) (active_turn : String) : Option Int × Option Nat :=
  mini_max_fuel (emptyCount g) g active_turn

/-- `ComputerPlayer.do_move(game)`: no-op on a finished game; on the empty
board (`tuple(set(game.board)) == (None,)`, i.e. the deduplicated cell list
is exactly `[None]`) play the cached move `0`; otherwise play the move
found by `_mini_max`.  As with `mark`, the result pairs the raised
exception (if any) with the resulting board state.  When `_mini_max`
returns `best_move = None` (impossible on an unfinished game, see
`mini_max_not_over`), the Python call `game.mark(symbol, None)` would
raise `InvalidMove` (`None in range(9)` is false in Python 2). -/
def do_move (g : TicTacToeGame) : Except MoveError Unit × TicTacToeGame :=
  if g.is_over then
    (.ok (), g)
  else if g.board.dedup = [none] then
    g.mark symbol 0
  else
    match (mini_max g symbol).2 with
    | some best_move => g.mark symbol (best_move : Int)
    | none => (.error .invalidMove, g)

end ComputerPlayer

open TicTacToeGame ComputerPlayer

/-- Analysis definition (not from the source): the minimax value of a
position, from the computer player's perspective, with `active_turn` to
move — the first component of `_mini_max`, which is always `some` (see
`mini_max_fst_isSome`). -/
def value (g : TicTacToeGame) (active_turn : String) : Int :=
  ((mini_max g active_turn).1).getD 0

/-- Analysis definition (not from the source): a decidable certificate
that, with `xToMove` telling whose ply it is, the computer symbol `'X'`
can force the game to end without `'O'` winning.  Unlike the exhaustive
`mini_max` it short-circuits (`any`/`all`), which makes concrete instances
cheap to evaluate; `xNeverLoses_sound` proves it implies `0 ≤ value`. -/
def xNeverLoses : Nat → TicTacToeGame → Bool → Bool
  | fuel, g, xToMove =>
    if g.is_over then
      decide (g.winner ≠ some OPPONENT_PLAYER)
    else
      match fuel with
      | 0 => false
      | fuel + 1 =>
        if xToMove then
          g.available_positions.any (fun m => xNeverLoses fuel (markCell g PLAYER m) false)
        else
          g.available_positions.all (fun m => xNeverLoses fuel (markCell g OPPONENT_PLAYER m) true)

/-- Whose ply it is in a computer-versus-opponent game. -/
inductive Side where
  | computer
  | opponent
  deriving DecidableEq, Repr

/-- The marker the side to move places: the computer plays
`ComputerPlayer`'s symbol `'X'`, the opponent plays `'O'`. -/
def Side.marker : Side → String
  | .computer => ComputerPlayer.symbol
  | .opponent => OPPONENT_PLAYER

/-- Game traces in which the computer plays every one of its turns via
`ComputerPlayer.do_move` and the opponent plays arbitrary legal moves
(`'O'` on any available position); play continues only while the game is
not over. -/
inductive Reaches : TicTacToeGame → Side → TicTacToeGame → Side → Prop where
  | refl (g : TicTacToeGame) (t : Side) : Reaches g t g t
  | computer_step {g0 : TicTacToeGame} {t0 : Side} {g g' : TicTacToeGame}
      (hr : Reaches g0 t0 g .computer) (hov : g.is_over = false)
      (hm : do_move g = (.ok (), g')) : Reaches g0 t0 g' .opponent
  | opponent_step {g0 : TicTacToeGame} {t0 : Side} {g : TicTacToeGame} {m : Nat}
      (hr : Reaches g0 t0 g .opponent) (hov : g.is_over = false)
      (hm : m ∈ g.available_positions) :
      Reaches g0 t0 (markCell g OPPONENT_PLAYER m) .computer

/-- Boards reachable from the empty board by repeatedly writing `'X'` or
`'O'` into an available (empty) position of a board whose game is not yet
over — every board that can actually occur in play, whatever the order of
the marks. -/
inductive MarkReachable : TicTacToeGame → Prop where
  | empty : MarkReachable ⟨List.replicate 9 none⟩
  | step {g : TicTacToeGame} {s : String} {m : Nat} (hr : MarkReachable g)
      (hov : g.is_over = false) (hs : s = PLAYER ∨ s = OPPONENT_PLAYER)
      (hm : m ∈ g.available_positions) : MarkReachable (markCell g s m)

/-- The three cells of WinLine `win_perm` all hold the (non-empty) marker
`s`: the claim-side notion of a completed winning line. -/
def LineCompletedBy (g : TicTacToeGame) (win_perm : Nat × Nat × Nat) (s : String) : Prop :=
  g.cell win_perm.1 = some s ∧ g.cell win_perm.2.1 = some s ∧ g.cell win_perm.2.2 = some s

instance (g : TicTacToeGame) (wp : Nat × Nat × Nat) (s : String) :
    Decidable (LineCompletedBy g wp s) := by
  unfold LineCompletedBy; infer_instance

/-- Some WinLine of the board is completed by some (non-empty) marker. -/
def HasCompletedLine (g : TicTacToeGame) : Prop :=
  ∃ wp ∈ WIN_POSITIONS, g.win_cond wp ≠ none

instance (g : TicTacToeGame) : Decidable (HasCompletedLine g) := by
  unfold HasCompletedLine
  infer_instance

/-- The freshly constructed game: 9 `None` cells. -/
def emptyGame : TicTacToeGame :=
  ⟨List.replicate 9 none⟩

/-- The position after the computer's cached opening move: `'X'` at 0 on
the empty board, opponent to move. -/
def xFirstGame : TicTacToeGame :=
  markCell emptyGame PLAYER 0

/-- Concrete board `[O, O, None, X, None, None, None, None, None]`: `'O'`
threatens row 0 at position 2 and the computer (playing `'X'`) must
block. -/
def blockGame : TicTacToeGame :=
  ⟨[some "O", some "O", none, some "X", none, none, none, none, none]⟩

/-- A valid board on which the computer, to move, already faces a double
threat by `'O'` (positions 2 and 6 both complete an `'O'` line): a forced
loss whatever `do_move` plays. -/
def doomedGame : TicTacToeGame :=
  ⟨[some "O", some "O", none,
    some "O", some "X", some "X",
    none, some "X", none]⟩

/-- The board `do_move` produces from `doomedGame` (the search blocks at
position 2). -/
def doomedGame1 : TicTacToeGame :=
  ⟨[some "O", some "O", some "X",
    some "O", some "X", some "X",
    none, some "X", none]⟩

/-- The board after the opponent replies at position 6, completing the
`'O'` column `(0, 3, 6)`. -/
def doomedGame2 : TicTacToeGame :=
  ⟨[some "O", some "O", some "X",
    some "O", some "X", some "X",
    some "O", some "X", none]⟩

/-- A valid board where the computer, to move, can force a win (the
diagonal `(2, 4, 6)` holds `'X'` at 2 and 4 with 6 empty). -/
def wonGame : TicTacToeGame :=
  ⟨[some "X", some "O", some "X",
    some "O", some "X", some "O",
    none, none, none]⟩

/-- A board the Python constructor accepts (length 9, cells in
`{'X', 'O', None}`) on which BOTH markers complete a WinLine: `'X'` owns
row `(0, 1, 2)` and `'O'` owns row `(3, 4, 5)`.  The constructor checks
membership only, never mark counts. -/
def twoWinsGame : TicTacToeGame :=
  ⟨[some "X", some "X", some "X",
    some "O", some "O", some "O",
    none, none, none]⟩

/-- A board reached by actual play (X at 0, O at 3, X at 1, O at 4, X at
2): `'X'` has just completed row `(0, 1, 2)`. -/
def xWinGame : TicTacToeGame :=
  ⟨[some "X", some "X", some "X",
    some "O", some "O", none,
    none, none, none]⟩

/- ================================================================
   Theorems.
   ================================================================ -/

/-- Membership in `available_positions`, phrased with `List.get?`:
exactly the in-range indices whose cell is `None`. -/
theorem mem_available_positions (g : TicTacToeGame) (m : Nat) :
    m ∈ g.available_positions ↔ g.board.get? m = some none := by
  unfold available_positions
  rw [List.mem_map]
  constructor
  · rintro ⟨⟨i, v⟩, hmem, rfl⟩
    rw [List.mem_filter] at hmem
    obtain ⟨henum, hv⟩ := hmem
    simp only [decide_eq_true_eq] at hv
    subst hv
    have := List.mem_enum_iff_get?.mp henum
    simpa using this
  · intro h
    refine ⟨(m, none), ?_, rfl⟩
    rw [List.mem_filter]
    exact ⟨List.mem_enum_iff_get?.mpr (by simpa using h), by simp⟩

/-- Auxiliary: overwriting a `none` entry with `some s` strictly decreases
the count of `none` entries. -/
theorem countP_none_set_lt (s : String) :
    ∀ (l : List (Option String)) (m : Nat), l.get? m = some none →
      (l.set m (some s)).countP (fun c => decide (c = none)) <
        l.countP (fun c => decide (c = none))
  | [], m, h => by simp at h
  | a :: t, 0, h => by
    simp only [List.get?] at h
    injection h with h
    subst h
    simp [List.countP_cons]
  | a :: t, m + 1, h => by
    simp only [List.get?] at h
    have ih := countP_none_set_lt s t m h
    simp only [List.set, List.countP_cons]
    omega

/-- Auxiliary: overwriting a `none` entry with `some s` decreases the
count of `none` entries by exactly one. -/
theorem countP_none_set_eq (s : String) :
    ∀ (l : List (Option String)) (m : Nat), l.get? m = some none →
      l.countP (fun c => decide (c = none)) =
        (l.set m (some s)).countP (fun c => decide (c = none)) + 1
  | [], m, h => by simp at h
  | a :: t, 0, h => by
    simp only [List.get?] at h
    injection h with h
    subst h
    simp [List.countP_cons]
  | a :: t, m + 1, h => by
    simp only [List.get?] at h
    have ih := countP_none_set_eq s t m h
    simp only [List.set, List.countP_cons]
    omega

/-- Marking an available cell removes exactly one empty cell. -/
theorem emptyCount_markCell (g : TicTacToeGame) (s : String) (m : Nat)
    (hm : m ∈ g.available_positions) :
    emptyCount g = emptyCount (markCell g s m) + 1 := by
  rw [mem_available_positions] at hm
  exact countP_none_set_eq s g.board m hm

/-- A board with no empty cell is over. -/
theorem is_over_of_emptyCount_zero (g : TicTacToeGame) (h : emptyCount g = 0) :
    g.is_over = true := by
  have hnone : none ∉ g.board := by
    intro hmem
    have : 0 < emptyCount g := List.countP_pos.mpr ⟨none, hmem, by simp⟩
    omega
  unfold is_over game_result
  cases ((WIN_POSITIONS.map g.win_cond).reduceOption).head? with
  | some w => rfl
  | none => simp [hnone]

/-- A board that is not over still has an empty cell. -/
theorem mem_none_of_not_over (g : TicTacToeGame) (h : g.is_over = false) :
    none ∈ g.board := by
  unfold is_over game_result at h
  by_cases hmem : none ∈ g.board
  · exact hmem
  · exfalso
    cases hh : ((WIN_POSITIONS.map g.win_cond).reduceOption).head? with
    | some w => rw [hh] at h; simp at h
    | none => rw [hh] at h; simp [hmem] at h

/-- `mini_max` satisfies the recursion of `ComputerPlayer._mini_max`
verbatim: on a finished game return `(score, None)`; otherwise fold the
selection loop over the `(score, move)` pairs of the available positions,
each scored by the recursive call on the board with that move marked. -/
theorem mini_max_eq (g : TicTacToeGame) (active_turn : String) :
    mini_max g active_turn =
      if g.is_over then
        (some (score g), none)
      else
        (g.available_positions.map
          (fun m =>
            ((mini_max (markCell g active_turn m) (next_active_turn active_turn)).1, m))).foldl
          (select active_turn) (none, none) := by
  unfold mini_max
  by_cases h : g.is_over
  · cases hn : emptyCount g <;> simp [mini_max_fuel, h]
  · rw [Bool.not_eq_true] at h
    have hpos : 0 < emptyCount g :=
      List.countP_pos.mpr ⟨none, mem_none_of_not_over g h, by simp⟩
    obtain ⟨k, hk⟩ : ∃ k, emptyCount g = k + 1 := ⟨emptyCount g - 1, by omega⟩
    rw [hk]
    simp only [mini_max_fuel, h, Bool.false_eq_true, if_false]
    congr 1
    apply List.map_congr_left
    intro m hm
    have hcount : emptyCount (markCell g active_turn m) = k := by
      have := emptyCount_markCell g active_turn m hm
      omega
    rw [hcount]

/-- Python `pos in range(9)` for an int is the interval test `0 ≤ pos < 9`. -/
theorem mem_range9_iff (p : Int) :
    p ∈ (List.range 9).map (Int.ofNat) ↔ 0 ≤ p ∧ p < 9 := by
  rw [List.mem_map]
  constructor
  · rintro ⟨n, hn, rfl⟩
    rw [List.mem_range] at hn
    simp only [Int.ofNat_eq_coe]
    omega
  · rintro ⟨h0, h9⟩
    refine ⟨p.toNat, by rw [List.mem_range]; omega, ?_⟩
    simp only [Int.ofNat_eq_coe]
    omega

/-- `mark` raises `InvalidSymbol` exactly when the uppercased symbol is
neither `'X'` nor `'O'`, and in that case whatever the position is. -/
theorem mark_invalidSymbol_iff (g : TicTacToeGame) (s : String) (p : Int) :
    (g.mark s p).1 = .error .invalidSymbol ↔
      (pyUpper s ≠ PLAYER ∧ pyUpper s ≠ OPPONENT_PLAYER) := by
  unfold mark
  by_cases hs : pyUpper s ∈ ([PLAYER, OPPONENT_PLAYER] : List String)
  · rcases List.mem_pair.mp hs with h | h <;>
      · simp only [hs, not_true_eq_false, if_false, if_neg, ite_not]
        by_cases hp : p ∈ (List.range 9).map (Int.ofNat) <;> simp [hp, h]
  · have := List.mem_pair.not.mp hs
    push_neg at this
    simp [hs, this]

/-- `mark` raises `InvalidMove` exactly when the symbol is valid but the
position is outside `[0, 9)`. -/
theorem mark_invalidMove_iff (g : TicTacToeGame) (s : String) (p : Int) :
    (g.mark s p).1 = .error .invalidMove ↔
      ((pyUpper s = PLAYER ∨ pyUpper s = OPPONENT_PLAYER) ∧ ¬(0 ≤ p ∧ p < 9)) := by
  unfold mark
  by_cases hs : pyUpper s ∈ ([PLAYER, OPPONENT_PLAYER] : List String)
  · by_cases hp : p ∈ (List.range 9).map (Int.ofNat)
    · simp [hs, hp, List.mem_pair.mp hs, (mem_range9_iff p).mp hp]
    · simp [hs, hp, List.mem_pair.mp hs, (mem_range9_iff p).not.mp hp]
  · have := List.mem_pair.not.mp hs
    push_neg at this
    simp [hs, this]

/-- When the symbol is valid and the position in range, `mark` succeeds
and writes the uppercased symbol into that cell. -/
theorem mark_ok (g : TicTacToeGame) (s : String) (p : Int)
    (hs : pyUpper s = PLAYER ∨ pyUpper s = OPPONENT_PLAYER) (hp : 0 ≤ p ∧ p < 9) :
    g.mark s p = (.ok (), ⟨g.board.set p.toNat (some (pyUpper s))⟩) := by
  unfold mark
  have hs' : pyUpper s ∈ ([PLAYER, OPPONENT_PLAYER] : List String) := List.mem_pair.mpr hs
  have hp' : p ∈ (List.range 9).map (Int.ofNat) := (mem_range9_iff p).mpr hp
  simp [hs', hp']

/-- When `mark` raises, the board state is unchanged. -/
theorem mark_error_state (g : TicTacToeGame) (s : String) (p : Int) (e : MoveError)
    (h : (g.mark s p).1 = .error e) : (g.mark s p).2 = g := by
  unfold mark at h ⊢
  by_cases hs : pyUpper s ∈ ([PLAYER, OPPONENT_PLAYER] : List String)
  · by_cases hp : p ∈ (List.range 9).map (Int.ofNat)
    · simp [hs, hp] at h
    · simp [hs, hp]
  · simp [hs]

/-- `select` at a maximizing node (`active_turn` is the player's own
symbol). -/
theorem select_max (t : String) (ht : t = symbol) (best : Option Int × Option Nat)
    (sm : Option Int × Nat) :
    select t best sm =
      if best.1 = none ∨ pyGt sm.1 best.1 then (sm.1, some sm.2) else best := by
  simp [select, ht]

/-- `select` at a minimizing node (`active_turn` is the opponent's turn). -/
theorem select_min (t : String) (ht : t ≠ symbol) (best : Option Int × Option Nat)
    (sm : Option Int × Nat) :
    select t best sm =
      if best.1 = none ∨ pyLt sm.1 best.1 then (sm.1, some sm.2) else best := by
  simp [select, ht]

/-- Behaviour of the maximizing selection fold started at a seeded
accumulator `(some b, om)`: the result score is `some`, at least `b`, an
upper bound for every candidate score, and either the accumulator survives
untouched or the result is the earliest candidate strictly exceeding `b`
and every strictly earlier candidate. -/
theorem foldl_select_max (t : String) (ht : t = symbol) :
    ∀ (l : List (Option Int × Nat)) (b : Int) (om : Option Nat),
      (∀ p ∈ l, p.1 ≠ none) →
      ∃ s m', List.foldl (select t) (some b, om) l = (some s, m') ∧ b ≤ s ∧
        (∀ p ∈ l, ∀ z : Int, p.1 = some z → z ≤ s) ∧
        ((s = b ∧ m' = om) ∨
          ∃ i, ∃ hi : i < l.length, (l.get ⟨i, hi⟩).1 = some s ∧
            m' = some (l.get ⟨i, hi⟩).2 ∧ b < s ∧
            ∀ j (hj : j < i), ∀ z : Int, (l.get ⟨j, hj.trans hi⟩).1 = some z → z < s)
  | [], b, om, _ => by
    refine ⟨b, om, rfl, le_refl b, by simp, Or.inl ⟨rfl, rfl⟩⟩
  | (s₀, m₀) :: rest, b, om, h => by
    obtain ⟨z₀, hz₀⟩ : ∃ z₀, s₀ = some z₀ := by
      have := h (s₀, m₀) (by simp)
      cases s₀ with
      | none => simp at this
      | some z => exact ⟨z, rfl⟩
    subst hz₀
    have hrest : ∀ p ∈ rest, p.1 ≠ none := fun p hp => h p (List.mem_cons_of_mem _ hp)
    rw [List.foldl_cons, select_max t ht]
    by_cases hz : b < z₀
    · have hcond : ((some b : Option Int) = none ∨ pyGt (some z₀, m₀).1 (some b, om).1) := by
        right; simp [pyGt, hz]
      rw [if_pos hcond]
      obtain ⟨s, m', hfold, hbs, hub, hcase⟩ := foldl_select_max t ht rest z₀ (some m₀) hrest
      refine ⟨s, m', hfold, le_of_lt (lt_of_lt_of_le hz hbs), ?_, ?_⟩
      · intro p hp z hpz
        rcases List.mem_cons.mp hp with hhead | htail
        · rw [hhead] at hpz
          simp only at hpz
          injection hpz with hpz
          omega
        · exact hub p htail z hpz
      · rcases hcase with ⟨hs, hm⟩ | ⟨i, hi, hgi, hmi, hbs', hearly⟩
        · refine Or.inr ⟨0, by simp, ?_, ?_, ?_, ?_⟩
          · simp [hs]
          · simp [hm]
          · omega
          · intro j hj; omega
        · refine Or.inr ⟨i + 1, by simpa using Nat.succ_lt_succ hi, by simpa using hgi,
            by simpa using hmi, lt_trans hz hbs', ?_⟩
          intro j hj z hjz
          cases j with
          | zero =>
            simp only [List.get] at hjz
            injection hjz with hjz
            omega
          | succ j' =>
            have hj' : j' < i := Nat.lt_of_succ_lt_succ hj
            have := hearly j' hj' z (by simpa using hjz)
            exact this
    · have hcond : ¬((some b : Option Int) = none ∨ pyGt (some z₀, m₀).1 (some b, om).1) := by
        push_neg
        exact ⟨by simp, by simp [pyGt]; omega⟩
      rw [if_neg hcond]
      obtain ⟨s, m', hfold, hbs, hub, hcase⟩ := foldl_select_max t ht rest b om hrest
      refine ⟨s, m', hfold, hbs, ?_, ?_⟩
      · intro p hp z hpz
        rcases List.mem_cons.mp hp with hhead | htail
        · rw [hhead] at hpz
          simp only at hpz
          injection hpz with hpz
          omega
        · exact hub p htail z hpz
      · rcases hcase with ⟨hs, hm⟩ | ⟨i, hi, hgi, hmi, hbs', hearly⟩
        · exact Or.inl ⟨hs, hm⟩
        · refine Or.inr ⟨i + 1, by simpa using Nat.succ_lt_succ hi, by simpa using hgi,
            by simpa using hmi, hbs', ?_⟩
          intro j hj z hjz
          cases j with
          | zero =>
            simp only [List.get] at hjz
            injection hjz with hjz
            omega
          | succ j' =>
            have hj' : j' < i := Nat.lt_of_succ_lt_succ hj
            exact hearly j' hj' z (by simpa using hjz)

/-- Dual of `foldl_select_max` for the minimizing selection fold. -/
theorem foldl_select_min (t : String) (ht : t ≠ symbol) :
    ∀ (l : List (Option Int × Nat)) (b : Int) (om : Option Nat),
      (∀ p ∈ l, p.1 ≠ none) →
      ∃ s m', List.foldl (select t) (some b, om) l = (some s, m') ∧ s ≤ b ∧
        (∀ p ∈ l, ∀ z : Int, p.1 = some z → s ≤ z) ∧
        ((s = b ∧ m' = om) ∨
          ∃ i, ∃ hi : i < l.length, (l.get ⟨i, hi⟩).1 = some s ∧
            m' = some (l.get ⟨i, hi⟩).2 ∧ s < b ∧
            ∀ j (hj : j < i), ∀ z : Int, (l.get ⟨j, hj.trans hi⟩).1 = some z → s < z)
  | [], b, om, _ => by
    refine ⟨b, om, rfl, le_refl b, by simp, Or.inl ⟨rfl, rfl⟩⟩
  | (s₀, m₀) :: rest, b, om, h => by
    obtain ⟨z₀, hz₀⟩ : ∃ z₀, s₀ = some z₀ := by
      have := h (s₀, m₀) (by simp)
      cases s₀ with
      | none => simp at this
      | some z => exact ⟨z, rfl⟩
    subst hz₀
    have hrest : ∀ p ∈ rest, p.1 ≠ none := fun p hp => h p (List.mem_cons_of_mem _ hp)
    rw [List.foldl_cons, select_min t ht]
    by_cases hz : z₀ < b
    · have hcond : ((some b : Option Int) = none ∨ pyLt (some z₀, m₀).1 (some b, om).1) := by
        right; simp [pyLt, hz]
      rw [if_pos hcond]
      obtain ⟨s, m', hfold, hbs, hlb, hcase⟩ := foldl_select_min t ht rest z₀ (some m₀) hrest
      refine ⟨s, m', hfold, le_of_lt (lt_of_le_of_lt hbs hz), ?_, ?_⟩
      · intro p hp z hpz
        rcases List.mem_cons.mp hp with hhead | htail
        · rw [hhead] at hpz
          simp only at hpz
          injection hpz with hpz
          omega
        · exact hlb p htail z hpz
      · rcases hcase with ⟨hs, hm⟩ | ⟨i, hi, hgi, hmi, hbs', hearly⟩
        · refine Or.inr ⟨0, by simp, ?_, ?_, ?_, ?_⟩
          · simp [hs]
          · simp [hm]
          · omega
          · intro j hj; omega
        · refine Or.inr ⟨i + 1, by simpa using Nat.succ_lt_succ hi, by simpa using hgi,
            by simpa using hmi, lt_trans hbs' hz, ?_⟩
          intro j hj z hjz
          cases j with
          | zero =>
            simp only [List.get] at hjz
            injection hjz with hjz
            omega
          | succ j' =>
            have hj' : j' < i := Nat.lt_of_succ_lt_succ hj
            exact hearly j' hj' z (by simpa using hjz)
    · have hcond : ¬((some b : Option Int) = none ∨ pyLt (some z₀, m₀).1 (some b, om).1) := by
        push_neg
        exact ⟨by simp, by simp [pyLt]; omega⟩
      rw [if_neg hcond]
      obtain ⟨s, m', hfold, hbs, hlb, hcase⟩ := foldl_select_min t ht rest b om hrest
      refine ⟨s, m', hfold, hbs, ?_, ?_⟩
      · intro p hp z hpz
        rcases List.mem_cons.mp hp with hhead | htail
        · rw [hhead] at hpz
          simp only at hpz
          injection hpz with hpz
          omega
        · exact hlb p htail z hpz
      · rcases hcase with ⟨hs, hm⟩ | ⟨i, hi, hgi, hmi, hbs', hearly⟩
        · exact Or.inl ⟨hs, hm⟩
        · refine Or.inr ⟨i + 1, by simpa using Nat.succ_lt_succ hi, by simpa using hgi,
            by simpa using hmi, hbs', ?_⟩
          intro j hj z hjz
          cases j with
          | zero =>
            simp only [List.get] at hjz
            injection hjz with hjz
            omega
          | succ j' =>
            have hj' : j' < i := Nat.lt_of_succ_lt_succ hj
            exact hearly j' hj' z (by simpa using hjz)

/-- The first loop iteration always adopts the candidate, because
`best_score is None`. -/
theorem select_none_fst (t : String) (om : Option Nat) (sm : Option Int × Nat) :
    select t (none, om) sm = (sm.1, some sm.2) := by
  unfold select
  split <;> simp

/-- The maximizing selection fold over a nonempty list of `some` scores
returns the earliest candidate realizing the maximum score. -/
theorem foldl_select_max_init (t : String) (ht : t = symbol) (l : List (Option Int × Nat))
    (hne : l ≠ []) (h : ∀ p ∈ l, p.1 ≠ none) :
    ∃ s i, ∃ hi : i < l.length,
      List.foldl (select t) (none, none) l = (some s, some (l.get ⟨i, hi⟩).2) ∧
      (l.get ⟨i, hi⟩).1 = some s ∧
      (∀ p ∈ l, ∀ z : Int, p.1 = some z → z ≤ s) ∧
      (∀ j (hj : j < i), ∀ z : Int, (l.get ⟨j, hj.trans hi⟩).1 = some z → z < s) := by
  cases l with
  | nil => exact absurd rfl hne
  | cons p₀ rest =>
    obtain ⟨s₀, m₀⟩ := p₀
    obtain ⟨z₀, hz₀⟩ : ∃ z₀, s₀ = some z₀ := by
      have := h (s₀, m₀) (by simp)
      cases s₀ with
      | none => simp at this
      | some z => exact ⟨z, rfl⟩
    subst hz₀
    have hrest : ∀ p ∈ rest, p.1 ≠ none := fun p hp => h p (List.mem_cons_of_mem _ hp)
    rw [List.foldl_cons, select_none_fst]
    obtain ⟨s, m', hfold, hbs, hub, hcase⟩ := foldl_select_max t ht rest z₀ (some m₀) hrest
    have hubAll : ∀ p ∈ (some z₀, m₀) :: rest, ∀ z : Int, p.1 = some z → z ≤ s := by
      intro p hp z hpz
      rcases List.mem_cons.mp hp with hhead | htail
      · rw [hhead] at hpz
        simp only at hpz
        injection hpz with hpz
        omega
      · exact hub p htail z hpz
    rcases hcase with ⟨hs, hm⟩ | ⟨i, hi, hgi, hmi, hbs', hearly⟩
    · refine ⟨s, 0, by simp, ?_, by simp [hs], hubAll, by intro j hj; omega⟩
      rw [hfold, hm]
      simp
    · refine ⟨s, i + 1, by simpa using Nat.succ_lt_succ hi, ?_, by simpa using hgi, hubAll, ?_⟩
      · rw [hfold, hmi]
        simp
      · intro j hj z hjz
        cases j with
        | zero =>
          simp only [List.get] at hjz
          injection hjz with hjz
          omega
        | succ j' =>
          have hj' : j' < i := Nat.lt_of_succ_lt_succ hj
          exact hearly j' hj' z (by simpa using hjz)

/-- The minimizing selection fold over a nonempty list of `some` scores
returns the earliest candidate realizing the minimum score. -/
theorem foldl_select_min_init (t : String) (ht : t ≠ symbol) (l : List (Option Int × Nat))
    (hne : l ≠ []) (h : ∀ p ∈ l, p.1 ≠ none) :
    ∃ s i, ∃ hi : i < l.length,
      List.foldl (select t) (none, none) l = (some s, some (l.get ⟨i, hi⟩).2) ∧
      (l.get ⟨i, hi⟩).1 = some s ∧
      (∀ p ∈ l, ∀ z : Int, p.1 = some z → s ≤ z) ∧
      (∀ j (hj : j < i), ∀ z : Int, (l.get ⟨j, hj.trans hi⟩).1 = some z → s < z) := by
  cases l with
  | nil => exact absurd rfl hne
  | cons p₀ rest =>
    obtain ⟨s₀, m₀⟩ := p₀
    obtain ⟨z₀, hz₀⟩ : ∃ z₀, s₀ = some z₀ := by
      have := h (s₀, m₀) (by simp)
      cases s₀ with
      | none => simp at this
      | some z => exact ⟨z, rfl⟩
    subst hz₀
    have hrest : ∀ p ∈ rest, p.1 ≠ none := fun p hp => h p (List.mem_cons_of_mem _ hp)
    rw [List.foldl_cons, select_none_fst]
    obtain ⟨s, m', hfold, hbs, hlb, hcase⟩ := foldl_select_min t ht rest z₀ (some m₀) hrest
    have hlbAll : ∀ p ∈ (some z₀, m₀) :: rest, ∀ z : Int, p.1 = some z → s ≤ z := by
      intro p hp z hpz
      rcases List.mem_cons.mp hp with hhead | htail
      · rw [hhead] at hpz
        simp only at hpz
        injection hpz with hpz
        omega
      · exact hlb p htail z hpz
    rcases hcase with ⟨hs, hm⟩ | ⟨i, hi, hgi, hmi, hbs', hearly⟩
    · refine ⟨s, 0, by simp, ?_, by simp [hs], hlbAll, by intro j hj; omega⟩
      rw [hfold, hm]
      simp
    · refine ⟨s, i + 1, by simpa using Nat.succ_lt_succ hi, ?_, by simpa using hgi, hlbAll, ?_⟩
      · rw [hfold, hmi]
        simp
      · intro j hj z hjz
        cases j with
        | zero =>
          simp only [List.get] at hjz
          injection hjz with hjz
          omega
        | succ j' =>
          have hj' : j' < i := Nat.lt_of_succ_lt_succ hj
          exact hearly j' hj' z (by simpa using hjz)

/-- An unfinished game has at least one available position. -/
theorem available_positions_ne_nil (g : TicTacToeGame) (hov : g.is_over = false) :
    g.available_positions ≠ [] := by
  have hmem : none ∈ g.board := mem_none_of_not_over g hov
  obtain ⟨n, hn⟩ := List.get_of_mem hmem
  have : (n : Nat) ∈ g.available_positions := by
    rw [mem_available_positions, List.get?_eq_get n.2, hn]
  exact List.ne_nil_of_mem this

/-- `available_positions` is strictly increasing (ascending index order). -/
theorem available_positions_sorted (g : TicTacToeGame) :
    List.Pairwise (· < ·) g.available_positions := by
  unfold available_positions
  rw [List.pairwise_map]
  refine List.Pairwise.filter _ ?_
  rw [List.pairwise_iff_getElem]
  intro i j hi hj hij
  simpa [List.getElem_enum] using hij

/-- The score component of `_mini_max` is never `None`: at a leaf it is
the game's score, and an unfinished game always has at least one move for
the selection loop to adopt. -/
theorem mini_max_fst_isSome :
    ∀ (n : Nat) (g : TicTacToeGame) (t : String), emptyCount g = n →
      ((mini_max g t).1).isSome
  | n, g, t, hn => by
    rw [mini_max_eq]
    by_cases hov : g.is_over
    · simp [hov]
    · rw [Bool.not_eq_true] at hov
      cases n with
      | zero =>
        rw [is_over_of_emptyCount_zero g hn] at hov
        exact absurd hov (by simp)
      | succ k =>
        simp only [hov, Bool.false_eq_true, if_false]
        have hne : (g.available_positions.map
            (fun m =>
              ((mini_max (markCell g t m) (next_active_turn t)).1, m))) ≠ [] := by
          simpa using available_positions_ne_nil g hov
        have hsome : ∀ p ∈ (g.available_positions.map
            (fun m =>
              ((mini_max (markCell g t m) (next_active_turn t)).1, m))), p.1 ≠ none := by
          intro p hp
          obtain ⟨m, hm, rfl⟩ := List.mem_map.mp hp
          have hcount : emptyCount (markCell g t m) = k := by
            have := emptyCount_markCell g t m hm
            omega
          have := mini_max_fst_isSome k (markCell g t m) (next_active_turn t) hcount
          simpa [Option.isSome_iff_ne_none] using this
        by_cases ht : t = symbol
        · obtain ⟨s, i, hi, hfold, -, -, -⟩ := foldl_select_max_init t ht _ hne hsome
          rw [hfold]
          rfl
        · obtain ⟨s, i, hi, hfold, -, -, -⟩ := foldl_select_min_init t ht _ hne hsome
          rw [hfold]
          rfl

/-- In a strictly increasing list, an element strictly smaller than the
`i`-th element sits at an index strictly smaller than `i`. -/
theorem index_lt_of_sorted_lt (l : List Nat) (hs : List.Pairwise (· < ·) l)
    (i : Fin l.length) (j : Fin l.length) (hlt : l.get j < l.get i) : (j : Nat) < i := by
  rcases Nat.lt_trichotomy (j : Nat) (i : Nat) with h | h | h
  · exact h
  · exfalso
    have : l.get j = l.get i := by congr 1; exact Fin.ext h
    omega
  · exfalso
    have := List.pairwise_iff_get.mp hs i j h
    omega

/-- Structure of `_mini_max` at a maximizing node (the player's own turn)
on an unfinished game: it returns `some` best score together with an
available move attaining it; every available move scores at most the best
score, and every available move of smaller index scores strictly less
(the earliest-maximum tie-break). -/
theorem mini_max_spec_max (g : TicTacToeGame) (t : String) (ht : t = symbol)
    (hov : g.is_over = false) :
    ∃ s m, mini_max g t = (some s, some m) ∧ m ∈ g.available_positions ∧
      (mini_max (markCell g t m) (next_active_turn t)).1 = some s ∧
      (∀ m' ∈ g.available_positions, ∀ z : Int,
        (mini_max (markCell g t m') (next_active_turn t)).1 = some z → z ≤ s) ∧
      (∀ m' ∈ g.available_positions, m' < m → ∀ z : Int,
        (mini_max (markCell g t m') (next_active_turn t)).1 = some z → z < s) := by
  have hne : (g.available_positions.map
      (fun m => ((mini_max (markCell g t m) (next_active_turn t)).1, m))) ≠ [] := by
    simpa using available_positions_ne_nil g hov
  have hsome : ∀ p ∈ (g.available_positions.map
      (fun m => ((mini_max (markCell g t m) (next_active_turn t)).1, m))), p.1 ≠ none := by
    intro p hp
    obtain ⟨m, hm, rfl⟩ := List.mem_map.mp hp
    have := mini_max_fst_isSome (emptyCount (markCell g t m)) (markCell g t m)
      (next_active_turn t) rfl
    simpa [Option.isSome_iff_ne_none] using this
  obtain ⟨s, i, hi, hfold, hgi, hub, hearly⟩ := foldl_select_max_init t ht _ hne hsome
  have hi' : i < g.available_positions.length := by simpa using hi
  have hgeti : (g.available_positions.map
      (fun m => ((mini_max (markCell g t m) (next_active_turn t)).1, m))).get ⟨i, hi⟩ =
      ((mini_max (markCell g t (g.available_positions.get ⟨i, hi'⟩))
        (next_active_turn t)).1, g.available_positions.get ⟨i, hi'⟩) := by
    simp [List.get_eq_getElem, List.getElem_map]
  refine ⟨s, g.available_positions.get ⟨i, hi'⟩, ?_, List.get_mem _ _ _, ?_, ?_, ?_⟩
  · rw [mini_max_eq, if_neg (by simp [hov]), hfold, hgeti]
  · rw [hgeti] at hgi
    exact hgi
  · intro m' hm' z hz
    have hmem : ((mini_max (markCell g t m') (next_active_turn t)).1, m') ∈
        (g.available_positions.map
          (fun m => ((mini_max (markCell g t m) (next_active_turn t)).1, m))) :=
      List.mem_map_of_mem _ hm'
    exact hub _ hmem z hz
  · intro m' hm' hlt z hz
    obtain ⟨j, hj⟩ := List.mem_iff_get.mp hm'
    have hjlt : (j : Nat) < i := by
      refine index_lt_of_sorted_lt _ (available_positions_sorted g) ⟨i, hi'⟩ j ?_
      rw [hj]
      exact hlt
    refine hearly j hjlt z ?_
    have hgetj : (g.available_positions.map
        (fun m => ((mini_max (markCell g t m) (next_active_turn t)).1, m))).get
          ⟨(j : Nat), hjlt.trans hi⟩ =
        ((mini_max (markCell g t (g.available_positions.get j))
          (next_active_turn t)).1, g.available_positions.get j) := by
      simp [List.get_eq_getElem, List.getElem_map]
    rw [hgetj, hj]
    exact hz

/-- Structure of `_mini_max` at a minimizing node (the opponent's turn):
dual of `mini_max_spec_max`, with the best score a lower bound. -/
theorem mini_max_spec_min (g : TicTacToeGame) (t : String) (ht : t ≠ symbol)
    (hov : g.is_over = false) :
    ∃ s m, mini_max g t = (some s, some m) ∧ m ∈ g.available_positions ∧
      (mini_max (markCell g t m) (next_active_turn t)).1 = some s ∧
      (∀ m' ∈ g.available_positions, ∀ z : Int,
        (mini_max (markCell g t m') (next_active_turn t)).1 = some z → s ≤ z) ∧
      (∀ m' ∈ g.available_positions, m' < m → ∀ z : Int,
        (mini_max (markCell g t m') (next_active_turn t)).1 = some z → s < z) := by
  have hne : (g.available_positions.map
      (fun m => ((mini_max (markCell g t m) (next_active_turn t)).1, m))) ≠ [] := by
    simpa using available_positions_ne_nil g hov
  have hsome : ∀ p ∈ (g.available_positions.map
      (fun m => ((mini_max (markCell g t m) (next_active_turn t)).1, m))), p.1 ≠ none := by
    intro p hp
    obtain ⟨m, hm, rfl⟩ := List.mem_map.mp hp
    have := mini_max_fst_isSome (emptyCount (markCell g t m)) (markCell g t m)
      (next_active_turn t) rfl
    simpa [Option.isSome_iff_ne_none] using this
  obtain ⟨s, i, hi, hfold, hgi, hlb, hearly⟩ := foldl_select_min_init t ht _ hne hsome
  have hi' : i < g.available_positions.length := by simpa using hi
  have hgeti : (g.available_positions.map
      (fun m => ((mini_max (markCell g t m) (next_active_turn t)).1, m))).get ⟨i, hi⟩ =
      ((mini_max (markCell g t (g.available_positions.get ⟨i, hi'⟩))
        (next_active_turn t)).1, g.available_positions.get ⟨i, hi'⟩) := by
    simp [List.get_eq_getElem, List.getElem_map]
  refine ⟨s, g.available_positions.get ⟨i, hi'⟩, ?_, List.get_mem _ _ _, ?_, ?_, ?_⟩
  · rw [mini_max_eq, if_neg (by simp [hov]), hfold, hgeti]
  · rw [hgeti] at hgi
    exact hgi
  · intro m' hm' z hz
    have hmem : ((mini_max (markCell g t m') (next_active_turn t)).1, m') ∈
        (g.available_positions.map
          (fun m => ((mini_max (markCell g t m) (next_active_turn t)).1, m))) :=
      List.mem_map_of_mem _ hm'
    exact hlb _ hmem z hz
  · intro m' hm' hlt z hz
    obtain ⟨j, hj⟩ := List.mem_iff_get.mp hm'
    have hjlt : (j : Nat) < i := by
      refine index_lt_of_sorted_lt _ (available_positions_sorted g) ⟨i, hi'⟩ j ?_
      rw [hj]
      exact hlt
    refine hearly j hjlt z ?_
    have hgetj : (g.available_positions.map
        (fun m => ((mini_max (markCell g t m) (next_active_turn t)).1, m))).get
          ⟨(j : Nat), hjlt.trans hi⟩ =
        ((mini_max (markCell g t (g.available_positions.get j))
          (next_active_turn t)).1, g.available_positions.get j) := by
      simp [List.get_eq_getElem, List.getElem_map]
    rw [hgetj, hj]
    exact hz

/-- On a finished game the minimax value is the score. -/
theorem value_of_over (g : TicTacToeGame) (t : String) (hov : g.is_over = true) :
    value g t = score g := by
  unfold value
  rw [mini_max_eq, if_pos (by simp [hov])]
  rfl

/-- On an unfinished game at the player's own turn, `_mini_max` returns an
available move whose resulting position attains the node's value, and no
available move exceeds it. -/
theorem value_spec_max (g : TicTacToeGame) (hov : g.is_over = false) :
    ∃ m, (mini_max g symbol).2 = some m ∧ m ∈ g.available_positions ∧
      value (markCell g symbol m) (next_active_turn symbol) = value g symbol ∧
      ∀ m' ∈ g.available_positions,
        value (markCell g symbol m') (next_active_turn symbol) ≤ value g symbol := by
  obtain ⟨s, m, hmm, hmem, hatt, hub, -⟩ := mini_max_spec_max g symbol rfl hov
  refine ⟨m, by rw [hmm], hmem, ?_, ?_⟩
  · unfold value
    rw [hmm, hatt]
  · intro m' hm'
    have hsome := mini_max_fst_isSome (emptyCount (markCell g symbol m'))
      (markCell g symbol m') (next_active_turn symbol) rfl
    obtain ⟨z, hz⟩ := Option.isSome_iff_exists.mp hsome
    have hle := hub m' hm' z hz
    unfold value
    rw [hmm, hz]
    simpa using hle

/-- On an unfinished game at the opponent's turn, `_mini_max` returns an
available move whose resulting position attains the node's value, and
every available move scores at least it. -/
theorem value_spec_min (g : TicTacToeGame) (t : String) (ht : t ≠ symbol)
    (hov : g.is_over = false) :
    ∃ m, (mini_max g t).2 = some m ∧ m ∈ g.available_positions ∧
      value (markCell g t m) (next_active_turn t) = value g t ∧
      ∀ m' ∈ g.available_positions,
        value g t ≤ value (markCell g t m') (next_active_turn t) := by
  obtain ⟨s, m, hmm, hmem, hatt, hlb, -⟩ := mini_max_spec_min g t ht hov
  refine ⟨m, by rw [hmm], hmem, ?_, ?_⟩
  · unfold value
    rw [hmm, hatt]
  · intro m' hm'
    have hsome := mini_max_fst_isSome (emptyCount (markCell g t m'))
      (markCell g t m') (next_active_turn t) rfl
    obtain ⟨z, hz⟩ := Option.isSome_iff_exists.mp hsome
    have hle := hlb m' hm' z hz
    unfold value
    rw [hmm, hz]
    simpa using hle

/-- Singleton-dedup test on a three-element list: all elements coincide. -/
theorem dedup3_length_eq_one (a b c : Option String) :
    ([a, b, c].dedup).length = 1 ↔ (b = a ∧ c = a) := by
  constructor
  · intro h
    obtain ⟨x, hx⟩ := List.length_eq_one.mp h
    have hmem : ∀ y ∈ [a, b, c], y = x := by
      intro y hy
      have : y ∈ [a, b, c].dedup := List.mem_dedup.mpr hy
      rw [hx] at this
      simpa using this
    have ha := hmem a (by simp)
    have hb := hmem b (by simp)
    have hc := hmem c (by simp)
    exact ⟨hb.trans ha.symm, hc.trans ha.symm⟩
  · rintro ⟨rfl, rfl⟩
    rw [List.dedup_cons_of_mem (by simp), List.dedup_cons_of_mem (by simp),
      List.dedup_cons_of_not_mem (by simp), List.dedup_nil]
    rfl

/-- `win_cond` yields a marker exactly when the line is completed by it. -/
theorem win_cond_eq_some_iff (g : TicTacToeGame) (wp : Nat × Nat × Nat) (s : String) :
    g.win_cond wp = some s ↔ LineCompletedBy g wp s := by
  unfold win_cond LineCompletedBy
  by_cases h : ([g.cell wp.1, g.cell wp.2.1, g.cell wp.2.2].dedup).length = 1
  · obtain ⟨h2, h3⟩ := (dedup3_length_eq_one _ _ _).mp h
    rw [if_pos h]
    constructor
    · intro h1
      exact ⟨h1, h2.trans h1, h3.trans h1⟩
    · rintro ⟨h1, -, -⟩
      exact h1
  · rw [if_neg h]
    constructor
    · intro hcon
      exact absurd hcon (by simp)
    · rintro ⟨h1, h2, h3⟩
      exact absurd ((dedup3_length_eq_one _ _ _).mpr ⟨h2.trans h1.symm, h3.trans h1.symm⟩) h


/-- A cell value read through `cell` is a member of the board. -/
theorem cell_eq_some_mem (g : TicTacToeGame) (p : Nat) (w : String)
    (h : g.cell p = some w) : some w ∈ g.board := by
  unfold cell at h
  unfold List.getD at h
  cases hq : g.board.get? p with
  | none => rw [hq] at h; simp at h
  | some c =>
    rw [hq] at h
    simp only [Option.getD_some] at h
    subst h
    exact List.get?_mem hq

/-- The winner scan of `_game_result` comes up empty exactly when no
WinLine is completed. -/
theorem winner_scan_none_iff (g : TicTacToeGame) :
    ((WIN_POSITIONS.map g.win_cond).reduceOption).head? = none ↔ ¬HasCompletedLine g := by
  constructor
  · intro h hc
    obtain ⟨wp, hwp, hne⟩ := hc
    obtain ⟨s, hs⟩ := Option.ne_none_iff_exists.mp hne
    have hmem : s ∈ (WIN_POSITIONS.map g.win_cond).reduceOption :=
      List.reduceOption_mem_iff.mpr (by
        rw [hs]
        exact List.mem_map_of_mem _ hwp)
    cases hl : (WIN_POSITIONS.map g.win_cond).reduceOption with
    | nil => rw [hl] at hmem; simp at hmem
    | cons a l => rw [hl] at h; simp at h
  · intro h
    cases hl : (WIN_POSITIONS.map g.win_cond).reduceOption with
    | nil => rfl
    | cons a l =>
      exfalso
      have hmem : a ∈ (WIN_POSITIONS.map g.win_cond).reduceOption := by rw [hl]; simp
      have : some a ∈ WIN_POSITIONS.map g.win_cond := List.reduceOption_mem_iff.mp hmem
      obtain ⟨wp, hwp, hcond⟩ := List.mem_map.mp this
      exact h ⟨wp, hwp, by rw [hcond]; simp⟩

/-- When the winner scan finds a marker, some WinLine is completed by it. -/
theorem winner_scan_some (g : TicTacToeGame) (w : String)
    (h : ((WIN_POSITIONS.map g.win_cond).reduceOption).head? = some w) :
    ∃ wp ∈ WIN_POSITIONS, g.win_cond wp = some w := by
  have hmem : w ∈ (WIN_POSITIONS.map g.win_cond).reduceOption := by
    cases hl : (WIN_POSITIONS.map g.win_cond).reduceOption with
    | nil => rw [hl] at h; simp at h
    | cons a l =>
      rw [hl] at h
      simp only [List.head?_cons, Option.some_inj] at h
      simp [h]
  have : some w ∈ WIN_POSITIONS.map g.win_cond := List.reduceOption_mem_iff.mp hmem
  obtain ⟨wp, hwp, hcond⟩ := List.mem_map.mp this
  exact ⟨wp, hwp, hcond⟩

/-- `_game_result` when the scan finds a winner. -/
theorem game_result_of_scan_some (g : TicTacToeGame) (w : String)
    (h : ((WIN_POSITIONS.map g.win_cond).reduceOption).head? = some w) :
    g.game_result = (true, some w) := by
  unfold game_result
  rw [h]

/-- `_game_result` on an unfinished board: no winner, empty cell left. -/
theorem game_result_active (g : TicTacToeGame)
    (h : ((WIN_POSITIONS.map g.win_cond).reduceOption).head? = none)
    (hb : none ∈ g.board) : g.game_result = (false, none) := by
  unfold game_result
  rw [h]
  simp [hb]

/-- `_game_result` on a drawn board: no winner, no empty cell. -/
theorem game_result_draw (g : TicTacToeGame)
    (h : ((WIN_POSITIONS.map g.win_cond).reduceOption).head? = none)
    (hb : none ∉ g.board) : g.game_result = (true, none) := by
  unfold game_result
  rw [h]
  simp [hb]

/-- `_game_result` only reports a non-`None` winner together with
`is_over = True`. -/
theorem game_result_fst_of_snd (g : TicTacToeGame) (w : String)
    (h : (g.game_result).2 = some w) : (g.game_result).1 = true := by
  unfold game_result at h ⊢
  cases hh : ((WIN_POSITIONS.map g.win_cond).reduceOption).head? with
  | some u => rfl
  | none =>
    rw [hh] at h
    by_cases hb : none ∈ g.board <;> simp [hb] at h

/-- The `winner` property coincides with the second component of
`_game_result` (when that is `None` both branches return `None`). -/
theorem winner_eq_snd (g : TicTacToeGame) : g.winner = (g.game_result).2 := by
  unfold winner
  cases hs : (g.game_result).2 with
  | none => simp [hs]
  | some w =>
    have hf := game_result_fst_of_snd g w hs
    simp [hs, hf]

/-- The game has a winner exactly when some WinLine is completed. -/
theorem winner_ne_none_iff (g : TicTacToeGame) :
    g.winner ≠ none ↔ HasCompletedLine g := by
  rw [winner_eq_snd]
  constructor
  · intro h
    cases hh : ((WIN_POSITIONS.map g.win_cond).reduceOption).head? with
    | some u =>
      obtain ⟨wp, hwp, hcond⟩ := winner_scan_some g u hh
      exact ⟨wp, hwp, by rw [hcond]; simp⟩
    | none =>
      exfalso
      unfold game_result at h
      rw [hh] at h
      by_cases hb : none ∈ g.board <;> simp [hb] at h
  · intro h
    cases hh : ((WIN_POSITIONS.map g.win_cond).reduceOption).head? with
    | some u => rw [game_result_of_scan_some g u hh]; simp
    | none => exact absurd h ((winner_scan_none_iff g).mp hh)

/-- Any reported winner completes some WinLine. -/
theorem winner_some_line (g : TicTacToeGame) (w : String) (h : g.winner = some w) :
    ∃ wp ∈ WIN_POSITIONS, LineCompletedBy g wp w := by
  rw [winner_eq_snd] at h
  cases hh : ((WIN_POSITIONS.map g.win_cond).reduceOption).head? with
  | some u =>
    rw [game_result_of_scan_some g u hh] at h
    simp only at h
    injection h with h
    obtain ⟨wp, hwp, hcond⟩ := winner_scan_some g u hh
    rw [← h]
    exact ⟨wp, hwp, (win_cond_eq_some_iff g wp u).mp hcond⟩
  | none =>
    exfalso
    unfold game_result at h
    rw [hh] at h
    by_cases hb : none ∈ g.board <;> simp [hb] at h

/-- A completed WinLine forces `is_over`. -/
theorem is_over_of_completed (g : TicTacToeGame) (h : HasCompletedLine g) :
    g.is_over = true := by
  cases hh : ((WIN_POSITIONS.map g.win_cond).reduceOption).head? with
  | some u => unfold is_over; rw [game_result_of_scan_some g u hh]
  | none => exact absurd h ((winner_scan_none_iff g).mp hh)

/-- On a valid board the winner is `None`, `'X'` or `'O'`. -/
theorem winner_valid_cases (g : TicTacToeGame) (hv : Valid g) :
    g.winner = none ∨ g.winner = some PLAYER ∨ g.winner = some OPPONENT_PLAYER := by
  cases hw : g.winner with
  | none => exact Or.inl rfl
  | some w =>
    obtain ⟨wp, hwp, hc⟩ := winner_some_line g w hw
    have hmem : some w ∈ g.board := cell_eq_some_mem g wp.1 w hc.1
    rcases hv.2 (some w) hmem with h | h | h
    · right; left; exact h
    · right; right; exact h
    · exact absurd h (by simp)

/-- If the opponent has not won, the score is non-negative (valid board). -/
theorem score_nonneg (g : TicTacToeGame) (hv : Valid g)
    (h : g.winner ≠ some OPPONENT_PLAYER) : 0 ≤ score g := by
  unfold score
  rcases winner_valid_cases g hv with hw | hw | hw
  · simp [hw]
  · simp [hw, show PLAYER = symbol from rfl]
  · exact absurd hw h

/-- A non-negative score means the opponent has not won. -/
theorem winner_ne_opp_of_score_nonneg (g : TicTacToeGame) (h : 0 ≤ score g) :
    g.winner ≠ some OPPONENT_PLAYER := by
  intro hw
  unfold score at h
  rw [hw] at h
  have hne : OPPONENT_PLAYER ≠ symbol := by decide
  simp [hne] at h

/-- Writing `'X'` or `'O'` into a cell preserves board validity. -/
theorem markCell_valid (g : TicTacToeGame) (s : String) (m : Nat) (hv : Valid g)
    (hs : s = PLAYER ∨ s = OPPONENT_PLAYER) : Valid (markCell g s m) := by
  constructor
  · unfold markCell
    simp only [List.length_set]
    exact hv.1
  · intro c hc
    rcases List.mem_or_eq_of_mem_set hc with h | h
    · exact hv.2 c h
    · rcases hs with hs | hs
      · exact Or.inl (by rw [h, hs])
      · exact Or.inr (Or.inl (by rw [h, hs]))

/-- A valid board whose deduplicated cell list is exactly `[None]` is the
empty board. -/
theorem board_eq_replicate_of_dedup (g : TicTacToeGame) (hv : Valid g)
    (hd : g.board.dedup = [none]) : g.board = List.replicate 9 none := by
  rw [List.eq_replicate]
  refine ⟨hv.1, ?_⟩
  intro b hb
  have : b ∈ g.board.dedup := List.mem_dedup.mpr hb
  rw [hd] at this
  simpa using this

/-- On an available position and with a valid marker, `mark` succeeds and
performs exactly the `markCell` update used by the search embedding. -/
theorem mark_of_available (g : TicTacToeGame) (s : String) (m : Nat)
    (hs : s = PLAYER ∨ s = OPPONENT_PLAYER) (hlen : g.board.length = 9)
    (hm : m ∈ g.available_positions) :
    g.mark s (m : Int) = (.ok (), markCell g s m) := by
  have hup : pyUpper s = s := by
    rcases hs with hs | hs <;> rw [hs] <;> decide
  have hm9 : m < 9 := by
    rw [mem_available_positions] at hm
    obtain ⟨hlt, -⟩ := List.get?_eq_some.mp hm
    omega
  have := mark_ok g s (m : Int) (by rw [hup]; exact hs) (by constructor <;> omega)
  rw [this, hup]
  unfold markCell
  simp

/-- `do_move` is a no-op on a finished game. -/
theorem do_move_over (g : TicTacToeGame) (hov : g.is_over = true) :
    do_move g = (.ok (), g) := by
  unfold do_move
  simp [hov]

/-- `do_move` on an unfinished valid game: it succeeds and marks `'X'` at
a single available position — position `0` through the cached empty-board
special case, or the move computed by `_mini_max`. -/
theorem do_move_not_over (g : TicTacToeGame) (hv : Valid g) (hov : g.is_over = false) :
    ∃ m, m ∈ g.available_positions ∧ do_move g = (.ok (), markCell g PLAYER m) ∧
      (g.board.dedup = [none] → m = 0) ∧
      (g.board.dedup ≠ [none] → (mini_max g symbol).2 = some m) := by
  unfold do_move
  by_cases hd : g.board.dedup = [none]
  · have hboard := board_eq_replicate_of_dedup g hv hd
    have h0 : 0 ∈ g.available_positions := by
      rw [mem_available_positions, hboard]
      rfl
    have hmark := mark_of_available g symbol 0 (Or.inl rfl) hv.1 h0
    refine ⟨0, h0, ?_, fun _ => rfl, fun h => absurd hd h⟩
    rw [if_neg (by simp [hov]), if_pos hd]
    have hcast : ((0 : Nat) : Int) = (0 : Int) := rfl
    rw [← hcast, hmark]
    rfl
  · obtain ⟨m, hsnd, hmem, -, -⟩ := value_spec_max g hov
    have hmark := mark_of_available g symbol m (Or.inl rfl) hv.1 hmem
    refine ⟨m, hmem, ?_, fun h => absurd h hd, fun _ => hsnd⟩
    rw [if_neg (by simp [hov]), if_neg hd, hsnd]
    show g.mark symbol (m : Int) = (.ok (), markCell g PLAYER m)
    rw [hmark]
    rfl

/-- Soundness of the `xNeverLoses` certificate: it bounds the minimax
value from below by `0` — the certified player can force a non-losing
outcome, so the exhaustive search value is a draw or a win. -/
theorem xNeverLoses_sound (n : Nat) :
    ∀ (g : TicTacToeGame) (x : Bool), Valid g → emptyCount g = n →
      xNeverLoses n g x = true →
      0 ≤ value g (if x then symbol else OPPONENT_PLAYER) := by
  induction n with
  | zero =>
    intro g x hv hn hx
    have hov : g.is_over = true := is_over_of_emptyCount_zero g hn
    rw [value_of_over g _ hov]
    unfold xNeverLoses at hx
    rw [if_pos (by simp [hov])] at hx
    exact score_nonneg g hv (by simpa using hx)
  | succ k ih =>
    intro g x hv hn hx
    by_cases hov : g.is_over
    · rw [value_of_over g _ hov]
      unfold xNeverLoses at hx
      rw [if_pos (by simp [hov])] at hx
      exact score_nonneg g hv (by simpa using hx)
    · rw [Bool.not_eq_true] at hov
      unfold xNeverLoses at hx
      rw [if_neg (by simp [hov])] at hx
      cases x with
      | true =>
        simp only [if_true] at hx
        obtain ⟨m, hmem, hxm⟩ := List.any_eq_true.mp hx
        have hcount : emptyCount (markCell g PLAYER m) = k := by
          have := emptyCount_markCell g PLAYER m hmem
          omega
        have hchild := ih (markCell g PLAYER m) false
          (markCell_valid g PLAYER m hv (Or.inl rfl)) hcount hxm
        simp only [if_neg (by simp : ¬(false = true))] at hchild
        obtain ⟨m₀, -, -, -, hub⟩ := value_spec_max g hov
        have hle := hub m hmem
        simp only [if_pos rfl]
        calc (0 : Int) ≤ value (markCell g PLAYER m) OPPONENT_PLAYER := hchild
          _ = value (markCell g symbol m) (next_active_turn symbol) := rfl
          _ ≤ value g symbol := hle
      | false =>
        simp only [if_neg (by simp : ¬(false = true))] at hx ⊢
        obtain ⟨m₀, -, hmem₀, hatt, -⟩ := value_spec_min g OPPONENT_PLAYER (by decide) hov
        have hxm := List.all_eq_true.mp hx m₀ hmem₀
        have hcount : emptyCount (markCell g OPPONENT_PLAYER m₀) = k := by
          have := emptyCount_markCell g OPPONENT_PLAYER m₀ hmem₀
          omega
        have hchild := ih (markCell g OPPONENT_PLAYER m₀) true
          (markCell_valid g OPPONENT_PLAYER m₀ hv (Or.inr rfl)) hcount hxm
        simp only [if_pos rfl] at hchild
        calc (0 : Int) ≤ value (markCell g OPPONENT_PLAYER m₀) symbol := hchild
          _ = value (markCell g OPPONENT_PLAYER m₀) (next_active_turn OPPONENT_PLAYER) := rfl
          _ = value g OPPONENT_PLAYER := hatt

/-- The computer side marks the player's own symbol. -/
theorem marker_computer : Side.computer.marker = symbol := rfl

/-- The opponent side marks `'O'`. -/
theorem marker_opponent : Side.opponent.marker = OPPONENT_PLAYER := rfl

/-- After the player's symbol, the opponent is next. -/
theorem next_active_turn_symbol : next_active_turn symbol = OPPONENT_PLAYER := rfl

/-- After the opponent, the player's symbol is next. -/
theorem next_active_turn_opp : next_active_turn OPPONENT_PLAYER = symbol := rfl

/-- The position reached by the cached opening move is not losing for the
computer: certified by evaluating the short-circuiting `xNeverLoses`
search (`mini_max` itself is too large to evaluate inside the kernel from
an almost-empty board). -/
theorem opening_reply_value_nonneg : 0 ≤ value xFirstGame OPPONENT_PLAYER := by
  have hcert : xNeverLoses 8 xFirstGame false = true := by decide
  have h := xNeverLoses_sound 8 xFirstGame false (by decide) (by decide) hcert
  simpa using h

/-- Invariant of play: along any trace in which the computer plays its
turns via `do_move` and the opponent plays legal moves, board validity and
a non-negative minimax value (for the side to move) are preserved. -/
theorem reaches_invariant : ∀ (g0 : TicTacToeGame) (t0 : Side) (g : TicTacToeGame) (t : Side),
    Reaches g0 t0 g t → Valid g0 → 0 ≤ value g0 t0.marker →
    Valid g ∧ 0 ≤ value g t.marker := by
  intro g0 t0 g t hr
  induction hr with
  | refl => exact fun hv hval => ⟨hv, hval⟩
  | computer_step hra hov hm ih =>
    rename_i ga gb
    intro hv hval
    obtain ⟨hvg, hvalg⟩ := ih hv hval
    rw [marker_computer] at hvalg
    obtain ⟨m, hmem, heq, hempty, hsearch⟩ := do_move_not_over ga hvg hov
    have hg' : markCell ga PLAYER m = gb := congrArg Prod.snd (heq.symm.trans hm)
    refine ⟨?_, ?_⟩
    · rw [← hg']
      exact markCell_valid ga PLAYER m hvg (Or.inl rfl)
    · rw [marker_opponent, ← hg']
      by_cases hd : ga.board.dedup = [none]
      · have hm0 := hempty hd
        subst hm0
        have hb := board_eq_replicate_of_dedup ga hvg hd
        have hx : markCell ga PLAYER 0 = xFirstGame :=
          congrArg (fun b => (⟨b.set 0 (some PLAYER)⟩ : TicTacToeGame)) hb
        rw [hx]
        exact opening_reply_value_nonneg
      · have hsnd := hsearch hd
        obtain ⟨m', hsnd', hmem', hatt, -⟩ := value_spec_max ga hov
        have hm' : m' = m := by
          rw [hsnd'] at hsnd
          exact Option.some_inj.mp hsnd
        subst hm'
        rw [next_active_turn_symbol] at hatt
        rw [show PLAYER = symbol from rfl, hatt]
        exact hvalg
  | opponent_step hra hov hmem ih =>
    rename_i ga m
    intro hv hval
    obtain ⟨hvg, hvalg⟩ := ih hv hval
    rw [marker_opponent] at hvalg
    refine ⟨markCell_valid ga OPPONENT_PLAYER m hvg (Or.inr rfl), ?_⟩
    rw [marker_computer]
    obtain ⟨m₀, -, -, -, hlb⟩ := value_spec_min ga OPPONENT_PLAYER (by decide) hov
    have hle := hlb m hmem
    rw [next_active_turn_opp] at hle
    exact le_trans hvalg hle

/-- C1 (amended): from every valid board state whose minimax value for the
side to move is non-negative (the computer is not already in a forced-loss
position), if the `ComputerPlayer` plays every one of its turns via
`do_move` and the opponent plays arbitrary legal moves, then every
terminal state reached is a draw or a win for the computer's symbol `'X'`
— never a win for `'O'`. -/
theorem c1_optimal_never_loses (g0 : TicTacToeGame) (t0 : Side) (hv : Valid g0)
    (hval : 0 ≤ value g0 t0.marker) :
    ∀ g t, Reaches g0 t0 g t → g.is_over = true →
      g.winner = none ∨ g.winner = some PLAYER := by
  intro g t hr hov
  obtain ⟨hvg, hvalg⟩ := reaches_invariant g0 t0 g t hr hv hval
  rw [value_of_over g _ hov] at hvalg
  have hne := winner_ne_opp_of_score_nonneg g hvalg
  rcases winner_valid_cases g hvg with h | h | h
  · exact Or.inl h
  · exact Or.inr h
  · exact absurd h hne

/-- Witness for `c1_optimal_never_loses` at the concrete winnable board
`wonGame` with the computer to move. -/
theorem c1_optimal_never_loses_witness :
    Valid wonGame ∧ 0 ≤ value wonGame Side.computer.marker ∧
      (∀ g t, Reaches wonGame Side.computer g t → g.is_over = true →
        g.winner = none ∨ g.winner = some PLAYER) :=
  ⟨by decide, by decide,
    c1_optimal_never_loses wonGame Side.computer (by decide) (by decide)⟩

/-- C1 as literally stated is false: `doomedGame` is a valid, unfinished
board state, the computer (to move) plays every one of its turns via
`do_move`, yet two plies later the game is over with `'O'` the winner. -/
theorem c1_counterexample :
    Valid doomedGame ∧ doomedGame.is_over = false ∧
      Reaches doomedGame Side.computer doomedGame2 Side.computer ∧
      doomedGame2.is_over = true ∧ doomedGame2.winner = some OPPONENT_PLAYER := by
  refine ⟨by decide, by decide, ?_, by decide, by decide⟩
  have h1 : Reaches doomedGame Side.computer doomedGame1 Side.opponent :=
    Reaches.computer_step (Reaches.refl doomedGame Side.computer) (by decide) (by decide)
  have h2 : Reaches doomedGame Side.computer (markCell doomedGame1 OPPONENT_PLAYER 6)
      Side.computer :=
    Reaches.opponent_step h1 (by decide) (by decide)
  have hmc : markCell doomedGame1 OPPONENT_PLAYER 6 = doomedGame2 := by decide
  rwa [hmc] at h2

/-- Cells other than the marked one are unchanged by `markCell`. -/
theorem cell_markCell_ne (g : TicTacToeGame) (s : String) (m p : Nat) (hne : p ≠ m) :
    (markCell g s m).cell p = g.cell p := by
  unfold cell markCell
  unfold List.getD
  simp only [List.get?_eq_getElem?]
  rw [List.getElem?_set_ne (fun h => hne h.symm)]

/-- The marked cell holds the written symbol (in-range write). -/
theorem cell_markCell_self (g : TicTacToeGame) (s : String) (m : Nat)
    (hm : m < g.board.length) : (markCell g s m).cell m = some s := by
  unfold cell markCell
  unfold List.getD
  simp only [List.get?_eq_getElem?]
  rw [List.getElem?_set_self hm]
  rfl

/-- C5: `do_move` leaves the board of a finished game entirely unchanged;
on an unfinished game it succeeds and its net effect is exactly one
previously-empty cell set to the player's symbol `'X'`, every other cell
unchanged (the pure embedding of the search already accounts for all of
the mark/undo pairs performed while exploring). -/
theorem c5_do_move_frame (g : TicTacToeGame) (hv : Valid g) :
    (g.is_over = true → do_move g = (.ok (), g)) ∧
    (g.is_over = false → ∃ m, g.board.get? m = some none ∧
      (do_move g).1 = .ok () ∧
      (do_move g).2.board = g.board.set m (some PLAYER) ∧
      (do_move g).2.board.get? m = some (some PLAYER) ∧
      ∀ i, i ≠ m → (do_move g).2.board.get? i = g.board.get? i) := by
  constructor
  · intro hov
    exact do_move_over g hov
  · intro hov
    obtain ⟨m, hmem, heq, -, -⟩ := do_move_not_over g hv hov
    have hm9 : m < g.board.length := by
      rw [mem_available_positions] at hmem
      obtain ⟨hlt, -⟩ := List.get?_eq_some.mp hmem
      exact hlt
    refine ⟨m, (mem_available_positions g m).mp hmem, by rw [heq], by rw [heq]; rfl, ?_, ?_⟩
    · rw [heq]
      show (g.board.set m (some PLAYER)).get? m = some (some PLAYER)
      simp only [List.get?_eq_getElem?]
      rw [List.getElem?_set_self hm9]
    · intro i hi
      rw [heq]
      show (g.board.set m (some PLAYER)).get? i = g.board.get? i
      simp only [List.get?_eq_getElem?]
      rw [List.getElem?_set_ne (fun h => hi h.symm)]

/-- Witness for `c5_do_move_frame` at the concrete board `blockGame`. -/
theorem c5_do_move_frame_witness :
    Valid blockGame ∧
      (blockGame.is_over = true → do_move blockGame = (.ok (), blockGame)) ∧
      (blockGame.is_over = false → ∃ m, blockGame.board.get? m = some none ∧
        (do_move blockGame).1 = .ok () ∧
        (do_move blockGame).2.board = blockGame.board.set m (some PLAYER) ∧
        (do_move blockGame).2.board.get? m = some (some PLAYER) ∧
        ∀ i, i ≠ m → (do_move blockGame).2.board.get? i = blockGame.board.get? i) :=
  ⟨by decide, c5_do_move_frame blockGame (by decide)⟩

/-- C9: on the all-empty board the special-case branch of `do_move` fires
(the deduplicated cell list is exactly `[None]`, the Python
`tuple(set(board)) == (None,)` test) and the cached move is played: `'X'`
is marked at position 0 via `mark`, with no minimax search run. -/
theorem c9_empty_board_cached_move :
    emptyGame.board.dedup = [none] ∧
    emptyGame.is_over = false ∧
    do_move emptyGame = emptyGame.mark symbol 0 ∧
    do_move emptyGame = (.ok (), xFirstGame) ∧
    xFirstGame.board.get? 0 = some (some PLAYER) := by
  refine ⟨by decide, by decide, ?_, by decide, by decide⟩
  unfold do_move
  rw [if_neg (by decide), if_pos (by decide)]

/-- C8: on `[O, O, None, X, None, None, None, None, None]` with the
computer playing `'X'`, `do_move` blocks at position 2 and the game stays
active. -/
theorem c8_block_scenario :
    do_move blockGame =
      (.ok (), ⟨[some "O", some "O", some "X", some "X", none, none, none, none, none]⟩) ∧
    (do_move blockGame).2.board.get? 2 = some (some PLAYER) ∧
    (do_move blockGame).2.status = GAME_STATUS_ACTIVE := by
  have h : do_move blockGame =
      (.ok (), ⟨[some "O", some "O", some "X", some "X", none, none, none, none, none]⟩) := by
    decide
  refine ⟨h, ?_, ?_⟩ <;> rw [h] <;> decide

/-- `HasCompletedLine` unfolded to the claim-side statement: a WinLine all
of whose cells hold one identical non-empty marker. -/
theorem hasCompletedLine_iff (g : TicTacToeGame) :
    HasCompletedLine g ↔ ∃ wp ∈ WIN_POSITIONS, ∃ s, LineCompletedBy g wp s := by
  unfold HasCompletedLine
  constructor
  · rintro ⟨wp, hwp, hne⟩
    obtain ⟨s, hs⟩ := Option.ne_none_iff_exists.mp hne
    exact ⟨wp, hwp, s, (win_cond_eq_some_iff g wp s).mp hs.symm⟩
  · rintro ⟨wp, hwp, s, hs⟩
    refine ⟨wp, hwp, ?_⟩
    rw [(win_cond_eq_some_iff g wp s).mpr hs]
    simp

/-- `status` evaluates to `'WIN'` when the winner scan finds a marker. -/
theorem status_of_scan_some (g : TicTacToeGame) (u : String)
    (hh : ((WIN_POSITIONS.map g.win_cond).reduceOption).head? = some u) :
    g.status = GAME_STATUS_WIN := by
  unfold status
  rw [game_result_of_scan_some g u hh]
  rfl

/-- `status` evaluates to `'ACTIVE'` when there is no winner and an empty
cell remains. -/
theorem status_of_scan_none_active (g : TicTacToeGame)
    (hh : ((WIN_POSITIONS.map g.win_cond).reduceOption).head? = none)
    (hb : none ∈ g.board) : g.status = GAME_STATUS_ACTIVE := by
  unfold status
  rw [game_result_active g hh hb]
  rfl

/-- `status` evaluates to `'DRAW'` when there is no winner and no empty
cell. -/
theorem status_of_scan_none_draw (g : TicTacToeGame)
    (hh : ((WIN_POSITIONS.map g.win_cond).reduceOption).head? = none)
    (hb : none ∉ g.board) : g.status = GAME_STATUS_DRAW := by
  unfold status
  rw [game_result_draw g hh hb]
  rfl

/-- `status` is `'WIN'` exactly when some WinLine is completed. -/
theorem status_win_iff (g : TicTacToeGame) :
    g.status = GAME_STATUS_WIN ↔ HasCompletedLine g := by
  cases hh : ((WIN_POSITIONS.map g.win_cond).reduceOption).head? with
  | some u =>
    rw [status_of_scan_some g u hh]
    constructor
    · intro _
      obtain ⟨wp, hwp, hc⟩ := winner_scan_some g u hh
      exact ⟨wp, hwp, by rw [hc]; simp⟩
    · intro _
      rfl
  | none =>
    have hno := (winner_scan_none_iff g).mp hh
    by_cases hb : none ∈ g.board
    · rw [status_of_scan_none_active g hh hb]
      exact ⟨fun h => absurd h (by decide), fun h => absurd h hno⟩
    · rw [status_of_scan_none_draw g hh hb]
      exact ⟨fun h => absurd h (by decide), fun h => absurd h hno⟩

/-- `status` is `'DRAW'` exactly when no WinLine is completed and no cell
is empty. -/
theorem status_draw_iff (g : TicTacToeGame) :
    g.status = GAME_STATUS_DRAW ↔ (¬HasCompletedLine g ∧ none ∉ g.board) := by
  cases hh : ((WIN_POSITIONS.map g.win_cond).reduceOption).head? with
  | some u =>
    rw [status_of_scan_some g u hh]
    constructor
    · intro h
      exact absurd h (by decide)
    · rintro ⟨hno, -⟩
      obtain ⟨wp, hwp, hc⟩ := winner_scan_some g u hh
      exact absurd ⟨wp, hwp, by rw [hc]; simp⟩ hno
  | none =>
    have hno := (winner_scan_none_iff g).mp hh
    by_cases hb : none ∈ g.board
    · rw [status_of_scan_none_active g hh hb]
      constructor
      · intro h
        exact absurd h (by decide)
      · rintro ⟨-, hnb⟩
        exact absurd hb hnb
    · rw [status_of_scan_none_draw g hh hb]
      exact ⟨fun _ => ⟨hno, hb⟩, fun _ => rfl⟩

/-- `status` is `'ACTIVE'` exactly when no WinLine is completed and an
empty cell remains. -/
theorem status_active_iff (g : TicTacToeGame) :
    g.status = GAME_STATUS_ACTIVE ↔ (¬HasCompletedLine g ∧ none ∈ g.board) := by
  cases hh : ((WIN_POSITIONS.map g.win_cond).reduceOption).head? with
  | some u =>
    rw [status_of_scan_some g u hh]
    constructor
    · intro h
      exact absurd h (by decide)
    · rintro ⟨hno, -⟩
      obtain ⟨wp, hwp, hc⟩ := winner_scan_some g u hh
      exact absurd ⟨wp, hwp, by rw [hc]; simp⟩ hno
  | none =>
    have hno := (winner_scan_none_iff g).mp hh
    by_cases hb : none ∈ g.board
    · rw [status_of_scan_none_active g hh hb]
      exact ⟨fun _ => ⟨hno, hb⟩, fun _ => rfl⟩
    · rw [status_of_scan_none_draw g hh hb]
      constructor
      · intro h
        exact absurd h (by decide)
      · rintro ⟨-, hmb⟩
        exact absurd hmb hb

/-- C2: for every valid board `status` is exactly one of
`'WIN'`/`'DRAW'`/`'ACTIVE'`; it is `'WIN'` iff some WinLine holds one
identical non-empty marker in all three cells, `'DRAW'` iff no cell is
empty and no such line exists, `'ACTIVE'` otherwise; and `winner` is
non-`None` exactly when the status is `'WIN'`, in which case it is a
marker completing some WinLine, while draws and active games yield
`None`. -/
theorem c2_status_trichotomy (g : TicTacToeGame) (hv : Valid g) :
    (g.status = GAME_STATUS_WIN ∨ g.status = GAME_STATUS_DRAW ∨
      g.status = GAME_STATUS_ACTIVE) ∧
    (g.status = GAME_STATUS_WIN ↔ ∃ wp ∈ WIN_POSITIONS, ∃ s, LineCompletedBy g wp s) ∧
    (g.status = GAME_STATUS_DRAW ↔
      (none ∉ g.board ∧ ¬∃ wp ∈ WIN_POSITIONS, ∃ s, LineCompletedBy g wp s)) ∧
    (g.status = GAME_STATUS_ACTIVE ↔
      (none ∈ g.board ∧ ¬∃ wp ∈ WIN_POSITIONS, ∃ s, LineCompletedBy g wp s)) ∧
    (g.winner ≠ none ↔ g.status = GAME_STATUS_WIN) ∧
    (∀ s, g.winner = some s → ∃ wp ∈ WIN_POSITIONS, LineCompletedBy g wp s) ∧
    (g.status = GAME_STATUS_DRAW ∨ g.status = GAME_STATUS_ACTIVE → g.winner = none) := by
  refine ⟨?_, ?_, ?_, ?_, ?_, ?_, ?_⟩
  · by_cases hL : HasCompletedLine g
    · exact Or.inl ((status_win_iff g).mpr hL)
    · by_cases hb : none ∈ g.board
      · exact Or.inr (Or.inr ((status_active_iff g).mpr ⟨hL, hb⟩))
      · exact Or.inr (Or.inl ((status_draw_iff g).mpr ⟨hL, hb⟩))
  · rw [status_win_iff, hasCompletedLine_iff]
  · rw [status_draw_iff, hasCompletedLine_iff]
    exact ⟨fun ⟨h1, h2⟩ => ⟨h2, h1⟩, fun ⟨h1, h2⟩ => ⟨h2, h1⟩⟩
  · rw [status_active_iff, hasCompletedLine_iff]
    exact ⟨fun ⟨h1, h2⟩ => ⟨h2, h1⟩, fun ⟨h1, h2⟩ => ⟨h2, h1⟩⟩
  · rw [status_win_iff]
    exact winner_ne_none_iff g
  · exact fun s => winner_some_line g s
  · intro h
    by_cases hw : g.winner = none
    · exact hw
    · exfalso
      have hwin := (winner_ne_none_iff g).mp hw
      have := (status_win_iff g).mpr hwin
      rcases h with h | h <;> rw [h] at this <;> exact absurd this (by decide)

/-- Witness for `c2_status_trichotomy` at the concrete board
`doomedGame2` (a finished, `'O'`-won board). -/
theorem c2_status_trichotomy_witness :
    Valid doomedGame2 ∧
      ((doomedGame2.status = GAME_STATUS_WIN ∨ doomedGame2.status = GAME_STATUS_DRAW ∨
        doomedGame2.status = GAME_STATUS_ACTIVE) ∧
      (doomedGame2.status = GAME_STATUS_WIN ↔
        ∃ wp ∈ WIN_POSITIONS, ∃ s, LineCompletedBy doomedGame2 wp s) ∧
      (doomedGame2.status = GAME_STATUS_DRAW ↔
        (none ∉ doomedGame2.board ∧
          ¬∃ wp ∈ WIN_POSITIONS, ∃ s, LineCompletedBy doomedGame2 wp s)) ∧
      (doomedGame2.status = GAME_STATUS_ACTIVE ↔
        (none ∈ doomedGame2.board ∧
          ¬∃ wp ∈ WIN_POSITIONS, ∃ s, LineCompletedBy doomedGame2 wp s)) ∧
      (doomedGame2.winner ≠ none ↔ doomedGame2.status = GAME_STATUS_WIN) ∧
      (∀ s, doomedGame2.winner = some s →
        ∃ wp ∈ WIN_POSITIONS, LineCompletedBy doomedGame2 wp s) ∧
      (doomedGame2.status = GAME_STATUS_DRAW ∨ doomedGame2.status = GAME_STATUS_ACTIVE →
        doomedGame2.winner = none)) :=
  ⟨by decide, c2_status_trichotomy doomedGame2 (by decide)⟩

/-- Every cell of the empty board reads `None`. -/
theorem cell_emptyGame (p : Nat) : emptyGame.cell p = none := by
  unfold emptyGame cell
  unfold List.getD
  cases hq : (List.replicate 9 (none : Option String)).get? p with
  | none => rfl
  | some c =>
    have := List.get?_mem hq
    have hc : c = none := by simpa using List.eq_of_mem_replicate this
    rw [hc]
    rfl

/-- A line completed on the board after a mark was either already complete
before the mark, or passes through the marked cell and carries the marked
symbol. -/
theorem lineCompleted_markCell (g : TicTacToeGame) (s : String) (m : Nat)
    (hm : m ∈ g.available_positions) (wp : Nat × Nat × Nat) (σ : String)
    (hc : LineCompletedBy (markCell g s m) wp σ) :
    LineCompletedBy g wp σ ∨ σ = s := by
  have hlen : m < g.board.length := by
    rw [mem_available_positions] at hm
    obtain ⟨hlt, -⟩ := List.get?_eq_some.mp hm
    exact hlt
  by_cases h1 : wp.1 = m
  · right
    have := hc.1
    rw [h1, cell_markCell_self g s m hlen] at this
    exact (Option.some_inj.mp this).symm
  · by_cases h2 : wp.2.1 = m
    · right
      have := hc.2.1
      rw [h2, cell_markCell_self g s m hlen] at this
      exact (Option.some_inj.mp this).symm
    · by_cases h3 : wp.2.2 = m
      · right
        have := hc.2.2
        rw [h3, cell_markCell_self g s m hlen] at this
        exact (Option.some_inj.mp this).symm
      · left
        refine ⟨?_, ?_, ?_⟩
        · rw [← cell_markCell_ne g s m wp.1 h1]
          exact hc.1
        · rw [← cell_markCell_ne g s m wp.2.1 h2]
          exact hc.2.1
        · rw [← cell_markCell_ne g s m wp.2.2 h3]
          exact hc.2.2

/-- C6 (amended): on every board actually reachable in play — obtained
from the empty board by marking `'X'`/`'O'` at available positions of
not-yet-over boards — at most one marker completes a WinLine, so the
`winner` computed by scanning the fixed WinLine list cannot depend on the
scan order. -/
theorem c6_at_most_one_winner (g : TicTacToeGame) (hr : MarkReachable g) :
    ∀ wp1 ∈ WIN_POSITIONS, ∀ wp2 ∈ WIN_POSITIONS, ∀ s1 s2,
      LineCompletedBy g wp1 s1 → LineCompletedBy g wp2 s2 → s1 = s2 := by
  induction hr with
  | empty =>
    intro wp1 _ wp2 _ s1 s2 hc1 _
    exfalso
    have := hc1.1
    rw [show (⟨List.replicate 9 none⟩ : TicTacToeGame) = emptyGame from rfl] at this
    rw [cell_emptyGame] at this
    exact Option.noConfusion this
  | step hra hov hs hm ih =>
    rename_i ga sa ma
    intro wp1 hwp1 wp2 hwp2 s1 s2 hc1 hc2
    rcases lineCompleted_markCell ga sa ma hm wp1 s1 hc1 with hold1 | hnew1
    · exfalso
      have : HasCompletedLine ga := ⟨wp1, hwp1, by
        rw [(win_cond_eq_some_iff ga wp1 s1).mpr hold1]; simp⟩
      rw [is_over_of_completed ga this] at hov
      exact Bool.noConfusion hov
    · rcases lineCompleted_markCell ga sa ma hm wp2 s2 hc2 with hold2 | hnew2
      · exfalso
        have : HasCompletedLine ga := ⟨wp2, hwp2, by
          rw [(win_cond_eq_some_iff ga wp2 s2).mpr hold2]; simp⟩
        rw [is_over_of_completed ga this] at hov
        exact Bool.noConfusion hov
      · rw [hnew1, hnew2]

/-- Witness for `c6_at_most_one_winner`: the board reached by the play
X at 0, O at 3, X at 1, O at 4, X at 2, on which `'X'` has completed row
`(0, 1, 2)`, instantiated at that line twice. -/
theorem c6_at_most_one_winner_witness :
    MarkReachable xWinGame ∧ (0, 1, 2) ∈ WIN_POSITIONS ∧
      LineCompletedBy xWinGame (0, 1, 2) PLAYER ∧ PLAYER = PLAYER := by
  have h1 : MarkReachable (markCell emptyGame PLAYER 0) :=
    MarkReachable.step MarkReachable.empty (by decide) (Or.inl rfl) (by decide)
  have h2 : MarkReachable (markCell (markCell emptyGame PLAYER 0) OPPONENT_PLAYER 3) :=
    MarkReachable.step h1 (by decide) (Or.inr rfl) (by decide)
  have h3 : MarkReachable (markCell
      (markCell (markCell emptyGame PLAYER 0) OPPONENT_PLAYER 3) PLAYER 1) :=
    MarkReachable.step h2 (by decide) (Or.inl rfl) (by decide)
  have h4 : MarkReachable (markCell (markCell
      (markCell (markCell emptyGame PLAYER 0) OPPONENT_PLAYER 3) PLAYER 1)
      OPPONENT_PLAYER 4) :=
    MarkReachable.step h3 (by decide) (Or.inr rfl) (by decide)
  have h5 : MarkReachable (markCell (markCell (markCell
      (markCell (markCell emptyGame PLAYER 0) OPPONENT_PLAYER 3) PLAYER 1)
      OPPONENT_PLAYER 4) PLAYER 2) :=
    MarkReachable.step h4 (by decide) (Or.inl rfl) (by decide)
  have hreach : MarkReachable xWinGame := by
    have heq : markCell (markCell (markCell
        (markCell (markCell emptyGame PLAYER 0) OPPONENT_PLAYER 3) PLAYER 1)
        OPPONENT_PLAYER 4) PLAYER 2 = xWinGame := by decide
    rwa [heq] at h5
  exact ⟨hreach, by decide, by decide,
    c6_at_most_one_winner xWinGame hreach (0, 1, 2) (by decide) (0, 1, 2) (by decide)
      PLAYER PLAYER (by decide) (by decide)⟩

/-- C6 as literally stated is false: the constructor-valid board
`twoWinsGame` has `'X'` completing WinLine `(0, 1, 2)` and `'O'`
completing WinLine `(3, 4, 5)` simultaneously. -/
theorem c6_counterexample :
    Valid twoWinsGame ∧
    (0, 1, 2) ∈ WIN_POSITIONS ∧ (3, 4, 5) ∈ WIN_POSITIONS ∧
    LineCompletedBy twoWinsGame (0, 1, 2) PLAYER ∧
    LineCompletedBy twoWinsGame (3, 4, 5) OPPONENT_PLAYER ∧
    PLAYER ≠ OPPONENT_PLAYER := by
  refine ⟨by decide, by decide, by decide, by decide, by decide, by decide⟩

/-- The score component of `_mini_max` is `some` of the node's value. -/
theorem mini_max_fst_eq_value (g : TicTacToeGame) (t : String) :
    (mini_max g t).1 = some (value g t) := by
  have h := mini_max_fst_isSome (emptyCount g) g t rfl
  obtain ⟨z, hz⟩ := Option.isSome_iff_exists.mp h
  unfold value
  rw [hz]
  rfl

/-- C7: on every valid unfinished board and either active turn,
`_mini_max` returns an available move whose child position attains the
node's value; no available move beats it (in the maximizing or minimizing
sense of the turn), and every available move of strictly smaller index
scores strictly differently — the earliest-enumerated move among equal
scores wins, because the loop enumerates `available_positions` in
ascending order and compares with strict `>`/`<`. -/
theorem c7_earliest_best_move (g : TicTacToeGame) (t : String) (hv : Valid g)
    (hov : g.is_over = false) (ht : t = PLAYER ∨ t = OPPONENT_PLAYER) :
    ∃ m, (mini_max g t).2 = some m ∧ m ∈ g.available_positions ∧
      value (markCell g t m) (next_active_turn t) = value g t ∧
      (∀ m' ∈ g.available_positions,
        if t = symbol then
          value (markCell g t m') (next_active_turn t) ≤
            value (markCell g t m) (next_active_turn t)
        else
          value (markCell g t m) (next_active_turn t) ≤
            value (markCell g t m') (next_active_turn t)) ∧
      (∀ m' ∈ g.available_positions, m' < m →
        value (markCell g t m') (next_active_turn t) ≠
          value (markCell g t m) (next_active_turn t)) := by
  rcases ht with ht | ht
  · have hts : t = symbol := ht
    obtain ⟨s, m, hmm, hmem, hatt, hub, hearly⟩ := mini_max_spec_max g t hts hov
    have hvm : value (markCell g t m) (next_active_turn t) = s :=
      Option.some_inj.mp ((mini_max_fst_eq_value _ _).symm.trans hatt)
    refine ⟨m, by rw [hmm], hmem, ?_, ?_, ?_⟩
    · rw [hvm]
      unfold value
      rw [hmm]
      rfl
    · intro m' hm'
      rw [if_pos hts, hvm]
      exact hub m' hm' _ (mini_max_fst_eq_value _ _)
    · intro m' hm' hlt
      rw [hvm]
      have := hearly m' hm' hlt _ (mini_max_fst_eq_value _ _)
      omega
  · have hts : t ≠ symbol := by rw [ht]; decide
    obtain ⟨s, m, hmm, hmem, hatt, hlb, hearly⟩ := mini_max_spec_min g t hts hov
    have hvm : value (markCell g t m) (next_active_turn t) = s :=
      Option.some_inj.mp ((mini_max_fst_eq_value _ _).symm.trans hatt)
    refine ⟨m, by rw [hmm], hmem, ?_, ?_, ?_⟩
    · rw [hvm]
      unfold value
      rw [hmm]
      rfl
    · intro m' hm'
      rw [if_neg hts, hvm]
      exact hlb m' hm' _ (mini_max_fst_eq_value _ _)
    · intro m' hm' hlt
      rw [hvm]
      have := hearly m' hm' hlt _ (mini_max_fst_eq_value _ _)
      omega

/-- Witness for `c7_earliest_best_move` at the concrete unfinished board
`wonGame` with the computer's symbol to move. -/
theorem c7_earliest_best_move_witness :
    Valid wonGame ∧ wonGame.is_over = false ∧
      (PLAYER = PLAYER ∨ PLAYER = OPPONENT_PLAYER) ∧
      (∃ m, (mini_max wonGame PLAYER).2 = some m ∧ m ∈ wonGame.available_positions ∧
        value (markCell wonGame PLAYER m) (next_active_turn PLAYER) = value wonGame PLAYER ∧
        (∀ m' ∈ wonGame.available_positions,
          if PLAYER = symbol then
            value (markCell wonGame PLAYER m') (next_active_turn PLAYER) ≤
              value (markCell wonGame PLAYER m) (next_active_turn PLAYER)
          else
            value (markCell wonGame PLAYER m) (next_active_turn PLAYER) ≤
              value (markCell wonGame PLAYER m') (next_active_turn PLAYER)) ∧
        (∀ m' ∈ wonGame.available_positions, m' < m →
          value (markCell wonGame PLAYER m') (next_active_turn PLAYER) ≠
            value (markCell wonGame PLAYER m) (next_active_turn PLAYER))) :=
  ⟨by decide, by decide, Or.inl rfl,
    c7_earliest_best_move wonGame PLAYER (by decide) (by decide) (Or.inl rfl)⟩

/-- C3: `mark` raises `InvalidSymbol` iff the uppercased symbol is neither
`'X'` nor `'O'`; it raises `InvalidMove` iff the symbol is valid but the
position lies outside `[0, 9)`; otherwise it succeeds; on either error the
board is left completely unchanged; and in particular `mark('z', 0)`
raises `InvalidSymbol` while `mark('X', 9)` raises `InvalidMove`. -/
theorem c3_mark_error_conditions (g : TicTacToeGame) (s : String) (p : Int) :
    ((g.mark s p).1 = .error .invalidSymbol ↔
      ¬(pyUpper s = PLAYER ∨ pyUpper s = OPPONENT_PLAYER)) ∧
    ((g.mark s p).1 = .error .invalidMove ↔
      ((pyUpper s = PLAYER ∨ pyUpper s = OPPONENT_PLAYER) ∧ ¬(0 ≤ p ∧ p < 9))) ∧
    ((pyUpper s = PLAYER ∨ pyUpper s = OPPONENT_PLAYER) → (0 ≤ p ∧ p < 9) →
      (g.mark s p).1 = .ok ()) ∧
    (∀ e, (g.mark s p).1 = .error e → (g.mark s p).2 = g) ∧
    (g.mark "z" 0).1 = .error .invalidSymbol ∧
    (g.mark "X" 9).1 = .error .invalidMove := by
  refine ⟨?_, ?_, ?_, mark_error_state g s p, ?_, ?_⟩
  · rw [mark_invalidSymbol_iff g s p]
    constructor
    · rintro ⟨h1, h2⟩ (h | h)
      · exact h1 h
      · exact h2 h
    · intro h
      exact ⟨fun hh => h (Or.inl hh), fun hh => h (Or.inr hh)⟩
  · exact mark_invalidMove_iff g s p
  · intro hs hp
    rw [mark_ok g s p hs hp]
  · exact (mark_invalidSymbol_iff g "z" 0).mpr (by decide)
  · exact (mark_invalidMove_iff g "X" 9).mpr (by decide)

/-- C4: with a valid symbol and an in-range position, `mark` succeeds, and
writes the uppercased symbol into that cell, overwriting unconditionally
whatever was there, while every other cell is unchanged. -/
theorem c4_mark_success (g : TicTacToeGame) (s : String) (p : Int)
    (hs : pyUpper s = PLAYER ∨ pyUpper s = OPPONENT_PLAYER) (hp : 0 ≤ p ∧ p < 9) :
    (g.mark s p).1 = .ok () ∧
    (g.mark s p).2.board = g.board.set p.toNat (some (pyUpper s)) ∧
    (p.toNat < g.board.length →
      (g.mark s p).2.board.get? p.toNat = some (some (pyUpper s))) ∧
    (∀ i, i ≠ p.toNat → (g.mark s p).2.board.get? i = g.board.get? i) := by
  rw [mark_ok g s p hs hp]
  refine ⟨rfl, rfl, ?_, ?_⟩
  · intro hlen
    show (g.board.set p.toNat (some (pyUpper s))).get? p.toNat = some (some (pyUpper s))
    simp only [List.get?_eq_getElem?]
    rw [List.getElem?_set_self hlen]
  · intro i hi
    show (g.board.set p.toNat (some (pyUpper s))).get? i = g.board.get? i
    simp only [List.get?_eq_getElem?]
    rw [List.getElem?_set_ne (fun h => hi h.symm)]

/-- Witness for `c4_mark_success`: overwriting the occupied cell 0 of
`wonGame` (holding `'X'`) with lowercase `'o'`. -/
theorem c4_mark_success_witness :
    (pyUpper "o" = PLAYER ∨ pyUpper "o" = OPPONENT_PLAYER) ∧ ((0 : Int) ≤ 2 ∧ (2 : Int) < 9) ∧
    wonGame.board.get? 2 = some (some PLAYER) ∧
    ((wonGame.mark "o" 2).1 = .ok () ∧
      (wonGame.mark "o" 2).2.board = wonGame.board.set (2 : Int).toNat (some (pyUpper "o")) ∧
      ((2 : Int).toNat < wonGame.board.length →
        (wonGame.mark "o" 2).2.board.get? (2 : Int).toNat = some (some (pyUpper "o"))) ∧
      (∀ i, i ≠ (2 : Int).toNat →
        (wonGame.mark "o" 2).2.board.get? i = wonGame.board.get? i)) :=
  ⟨by decide, by decide, by decide,
    c4_mark_success wonGame "o" 2 (by decide) (by decide)⟩

/-- C10: `mark` validates the symbol before the position — an invalid
symbol raises `InvalidSymbol` for every position whatsoever, never
`InvalidMove`; in particular `mark('z', 99)` raises `InvalidSymbol`. -/
theorem c10_symbol_checked_first (g : TicTacToeGame) (s : String) (p : Int)
    (hs : ¬(pyUpper s = PLAYER ∨ pyUpper s = OPPONENT_PLAYER)) :
    (g.mark s p).1 = .error .invalidSymbol ∧
    (g.mark s p).1 ≠ .error .invalidMove ∧
    (g.mark "z" 99).1 = .error .invalidSymbol := by
  have h1 : (g.mark s p).1 = .error .invalidSymbol :=
    (mark_invalidSymbol_iff g s p).mpr ⟨fun h => hs (Or.inl h), fun h => hs (Or.inr h)⟩
  refine ⟨h1, by rw [h1]; decide, ?_⟩
  exact (mark_invalidSymbol_iff g "z" 99).mpr (by decide)

/-- Witness for `c10_symbol_checked_first` at symbol `'z'` and the
out-of-range position 99. -/
theorem c10_symbol_checked_first_witness :
    ¬(pyUpper "z" = PLAYER ∨ pyUpper "z" = OPPONENT_PLAYER) ∧
    ((emptyGame.mark "z" 99).1 = .error .invalidSymbol ∧
      (emptyGame.mark "z" 99).1 ≠ .error .invalidMove ∧
      (emptyGame.mark "z" 99).1 = .error .invalidSymbol) :=
  ⟨by decide, c10_symbol_checked_first emptyGame "z" 99 (by decide)⟩
